import Mathlib

set_option maxHeartbeats 1000000

/-!
Verification development for the alignment & diff engine of a Spanish
grammar-checker web service.

The engine lives in two TypeScript files:
  * `api/check.ts`   — the alignment resolver: `reindexCorrections`,
    `splitOversized`, `findUniqueInWindow`, `forwardGreedy`,
    `approxLocalAlign`, `levenshtein`, `tokenizeWithOffsets`,
    `lcsTokenMatches`, `clamp`;
  * `src/utils/text.ts` — the diff highlighter: `tokenizeUnicodeWords`,
    `lcsTokenMatches` (textually identical to the one in check.ts),
    `diffTokensToHunks`, `hunksToOriginalSpans`, `findOccurrencesInRange`,
    `chooseSpanType`, `buildDiffHighlights`.

Modelling conventions (shallow embedding):
  * A JavaScript string is modelled as `List Char` (a sequence of Unicode
    code points); offsets are positions in that list.  The source measures
    offsets in UTF-16 code units; all functions below use the same unit
    consistently, so the structural properties proved here are invariant
    under that change of unit.
  * `String.prototype.slice(s, e)` for `0 ≤ s, e` is `jsSlice`;
    `String.prototype.indexOf(needle, from)` is `jsIndexOf`, returning
    `Option Nat` in place of `-1`.
  * JavaScript numbers holding sizes and indices are `Nat` (the upstream
    JSON schema validates correction offsets as integers `≥ 0`); the
    `confidence` field and the similarity threshold are carried as `Rat`.
    They are only copied, or compared inside `approxLocalAlign`; IEEE-754
    rounding could flip that comparison in borderline cases, but no claim
    proved here depends on which branch `approxLocalAlign` takes.
  * DP tables (`levenshtein`, the LCS length table) are written as the
    recurrences they tabulate; memoisation is an implementation detail.
-/

namespace GrammarCheck

/-! ## Character classes

The tokenizer regular expression is `(\p{L}+|\d+|\s+|[^\s])/gu`.
`isLetterChar` models `\p{L}` (ASCII letters plus the Latin-1 supplement and
Latin Extended ranges, which cover Spanish); the full Unicode tables are out
of scope and no claim below depends on the extension of the letter class.
`isDigitChar` models `\d`, `isSpaceChar` models `\s` (the common members). -/

def isLetterChar (c : Char) : Bool :=
  c.isAlpha || (0xC0 ≤ c.toNat && c.toNat ≤ 0x24F && c.toNat ≠ 0xD7 && c.toNat ≠ 0xF7)

def isDigitChar (c : Char) : Bool := c.isDigit

def isSpaceChar (c : Char) : Bool :=
  c = ' ' || c = '\t' || c = '\n' || c = '\r' || c = '\x0B' || c = '\x0C' || c = ' '

/-! ## JavaScript string primitives -/

/-- `text.slice(s, e)` for nonnegative `s`, `e` (the only way the engine
calls it): out-of-range ends are clamped, `e ≤ s` yields the empty string. -/
def jsSlice (l : List Char) (s e : Nat) : List Char := (l.drop s).take (e - s)

/-- `text.indexOf(needle, fromIdx)`: the smallest position `i` at or after
`min fromIdx text.length` where `needle` occurs as a substring, `none` in
place of JavaScript's `-1`.  As in JavaScript, the empty needle matches at
`min fromIdx text.length`. -/
def jsIndexOf (text needle : List Char) (fromIdx : Nat) : Option Nat :=
  (List.range (text.length + 1)).find? fun i =>
    decide (min fromIdx text.length ≤ i) && needle.isPrefixOf (text.drop i)

/-- `clamp(n, lo, hi)` from check.ts: `Math.max(lo, Math.min(hi, n))`. -/
def clamp (n lo hi : Int) : Int := max lo (min hi n)

/-- The clamped window `[hintStart - w, hintStart + w]` used by
`findUniqueInWindow` and `approxLocalAlign`:
`a = clamp(hintStart - w, 0, len)`, `b = clamp(hintStart + w, 0, len)`
(computed over `Int`, since `hintStart - w` may be negative). -/
def windowBounds (len hintStart w : Nat) : Nat × Nat :=
  ((clamp ((hintStart : Int) - w) 0 len).toNat, (clamp ((hintStart : Int) + w) 0 len).toNat)

/-! ## Tokenizer

`tokenizeWithOffsets` (check.ts) and `tokenizeUnicodeWords` (text.ts) are
textually identical: repeatedly match `(\p{L}+|\d+|\s+|[^\s])` and record
each match with its offsets.  Since the alternation matches at every
position, the global scan consumes the string with no gaps: at each step it
takes the maximal run of letters, digits or whitespace starting at the
current position, or a single other character. -/

structure Token where
  token : List Char
  start : Nat
  «end» : Nat
deriving DecidableEq, Repr

/-- The continuation of the run started by `c`: the maximal prefix of `cs`
in the same class, or nothing when `c` is a non-space other character. -/
def runRest (c : Char) (cs : List Char) : List Char :=
  if isLetterChar c then cs.takeWhile isLetterChar
  else if isDigitChar c then cs.takeWhile isDigitChar
  else if isSpaceChar c then cs.takeWhile isSpaceChar
  else []

def tokenizeAux (l : List Char) (pos : Nat) : List Token :=
  match l with
  | [] => []
  | c :: cs =>
    let rest := runRest c cs
    ⟨c :: rest, pos, pos + (rest.length + 1)⟩ ::
      tokenizeAux (cs.drop rest.length) (pos + (rest.length + 1))
termination_by l.length
decreasing_by
  simp only [List.length_drop, List.length_cons]
  omega

def tokenizeWithOffsets (s : List Char) : List Token := tokenizeAux s 0

/-- text.ts `tokenizeUnicodeWords`; its body is textually identical to
`tokenizeWithOffsets` in check.ts. -/
def tokenizeUnicodeWords (s : List Char) : List Token := tokenizeWithOffsets s

/-! ## Longest common subsequence

`lcsTokenMatches` fills the suffix table
`dp[i][j] = LCS length of a[i:], b[j:]` and then walks it greedily from
`(0,0)`.  `lcsLen` is the recurrence the table tabulates; `lcsWalk` is the
walk, carrying the absolute indices `i`, `j` of the current suffix heads.
The walk's tie-break `dp[i+1][j] >= dp[i][j+1] → i++` is kept verbatim. -/

def lcsLen [DecidableEq α] : List α → List α → Nat
  | [], _ => 0
  | _ :: _, [] => 0
  | a₀ :: as, b₀ :: bs =>
    if a₀ = b₀ then lcsLen as bs + 1
    else max (lcsLen as (b₀ :: bs)) (lcsLen (a₀ :: as) bs)
termination_by a b => a.length + b.length

def lcsWalk [DecidableEq α] : List α → List α → Nat → Nat → List (Nat × Nat)
  | [], _, _, _ => []
  | _ :: _, [], _, _ => []
  | a₀ :: as, b₀ :: bs, i, j =>
    if a₀ = b₀ then (i, j) :: lcsWalk as bs (i + 1) (j + 1)
    else if lcsLen as (b₀ :: bs) ≥ lcsLen (a₀ :: as) bs then
      lcsWalk as (b₀ :: bs) (i + 1) j
    else lcsWalk (a₀ :: as) bs i (j + 1)
termination_by a b _ _ => a.length + b.length

/-- check.ts / text.ts `lcsTokenMatches` (the two copies are textually
identical): index pairs of equal tokens realising the LCS. -/
def lcsTokenMatches [DecidableEq α] (a b : List α) : List (Nat × Nat) :=
  lcsWalk a b 0 0

/-! ## check.ts: Levenshtein distance and the four-strategy locator -/

/-- check.ts `levenshtein`, written as the recurrence its rolling DP array
computes. -/
def levenshtein : List Char → List Char → Nat
  | [], b => b.length
  | a, [] => a.length
  | a₀ :: as, b₀ :: bs =>
    min (min (levenshtein as (b₀ :: bs) + 1) (levenshtein (a₀ :: as) bs + 1))
      (levenshtein as bs + (if a₀ = b₀ then 0 else 1))
termination_by a b => a.length + b.length

/-- check.ts `findUniqueInWindow`.  The source counts occurrences of
`needle` in the window slice with a scanning loop that returns `null` as
soon as the count exceeds 1, so at most two `indexOf` calls are ever made;
the loop is unrolled into those two calls here. -/
def findUniqueInWindow (text needle : List Char) (hintStart w : Nat) : Option Nat :=
  let ab := windowBounds text.length hintStart w
  let slice := jsSlice text ab.1 ab.2
  match jsIndexOf slice needle 0 with
  | none => none
  | some first =>
    match jsIndexOf slice needle (first + 1) with
    | some _ => none          -- a second occurrence: ambiguous
    | none => some (ab.1 + first)

/-- check.ts `forwardGreedy`: first occurrence at or after the cursor
(`jsIndexOf` clamps exactly like the source's `clamp(cursor, 0, len)`). -/
def forwardGreedy (text needle : List Char) (cursor : Nat) : Option Nat :=
  jsIndexOf text needle (min cursor text.length)

/-- check.ts `approxLocalAlign`: slide a window of `needle.length`
characters over `[a, upper]`, score each candidate by similarity
`1 - dist / max |needle| (max |cand| 1)`, and keep the best candidate
passing the distance-or-similarity gate (`-1`, i.e. `none`, when none
passes; strictly better score required, so ties go to the leftmost).
The loop bound `Math.max(a, Math.min(b, len - needle.length))` is computed
over `Int` as in JavaScript. -/
def approxLocalAlign (text needle : List Char) (hintStart w : Nat)
    (levCutoff : Nat) (simThreshold : Rat) : Option Nat :=
  let len := text.length
  let ab := windowBounds len hintStart w
  let a := ab.1
  let b := ab.2
  let upper := (max (a : Int) (min (b : Int) ((len : Int) - needle.length))).toNat
  let candidates := List.range' a (upper + 1 - a)
  let best := candidates.foldl
    (fun (acc : Option (Nat × Rat)) i =>
      let cand := jsSlice text i (i + needle.length)
      let dist := levenshtein needle cand
      let sim : Rat := 1 - (dist : Rat) / (max needle.length (max cand.length 1) : Nat)
      if dist ≤ levCutoff ∨ sim ≥ simThreshold then
        match acc with
        | none => some (i, sim)
        | some (bi, bs) => if sim > bs then some (i, sim) else some (bi, bs)
      else acc)
    none
  best.map Prod.fst

/-! ## check.ts: corrections, oversized splitting, the resolver -/

/-- A correction record (check.ts `Corr`).  The upstream JSON schema has
already validated the shape: `start`, `end` are integers `≥ 0` (but
otherwise untrusted), `type` is one of seven category strings, `confidence`
a number in `[0,1]`. -/
structure Corr where
  start : Nat
  «end» : Nat
  original : List Char
  suggestion : List Char
  type : String
  explanation_en : String
  confidence : Rat
deriving DecidableEq, Repr

structure ReindexOptions where
  window : Nat
  approxWindow : Nat
  levCutoff : Nat
  simThreshold : Rat
  oversizedChars : Nat
  oversizedWords : Nat
deriving DecidableEq, Repr

/-- The word count `orig.trim().split(/\s+/).filter(Boolean).length` from
`splitOversized`: the number of maximal non-whitespace runs. -/
def wordCount : List Char → Nat
  | [] => 0
  | c :: cs =>
    if isSpaceChar c then wordCount cs
    else wordCount (cs.dropWhile fun d => !isSpaceChar d) + 1
termination_by l => l.length
decreasing_by
  · simp only [List.length_cons]; omega
  · have := (List.dropWhile_sublist (l := cs) (p := fun d => !isSpaceChar d)).length_le
    simp only [List.length_cons]; omega

/-- The offset translation shared by check.ts `pushChange` (inline) and
text.ts `offsetsA`/`offsetsB`:
`start = i < toks.length ? toks[i].start : (toks[toks.length-1]?.end ?? 0)`,
`end   = j > 0 ? toks[j-1].end : start`.
The `j > 0` branch indexes `toks[j-1]` directly; every call keeps
`j ≤ toks.length`, so the out-of-range default `0` is never consulted. -/
def tokOffsets (toks : List Token) (i j : Nat) : Nat × Nat :=
  let start :=
    match toks.get? i with
    | some t => t.start
    | none =>
      match toks.getLast? with
      | some t => t.«end»
      | none => 0
  let stop :=
    if j > 0 then
      match toks.get? (j - 1) with
      | some t => t.«end»
      | none => 0
    else start
  (start, stop)

/-- check.ts `pushChange` (a closure inside `splitOversized`): emit the
sub-edit for the token-index gap `[aStartIdx, aEndIdx) × [bStartIdx,
bEndIdx)`, unless it is empty on both sides or both slices are empty. -/
def pushChange (c : Corr) (tokA tokB : List Token)
    (aStartIdx aEndIdx bStartIdx bEndIdx : Nat) : List Corr :=
  if aStartIdx ≥ aEndIdx ∧ bStartIdx ≥ bEndIdx then []
  else
    let off := tokOffsets tokA aStartIdx aEndIdx
    let origSlice := jsSlice c.original off.1 off.2
    let suggSlice := (((tokB.drop bStartIdx).take (bEndIdx - bStartIdx)).map Token.token).flatten
    if origSlice = [] ∧ suggSlice = [] then []
    else
      [{ c with
          start := c.start + off.1
          «end» := c.start + off.2
          original := origSlice
          suggestion := suggSlice }]

/-- The match-walk of `splitOversized`: one `pushChange` per gap before a
match, plus the tail gap. -/
def splitWalk (c : Corr) (tokA tokB : List Token) :
    List (Nat × Nat) → Nat → Nat → List Corr
  | [], aPos, bPos => pushChange c tokA tokB aPos tokA.length bPos tokB.length
  | (mi, mj) :: rest, aPos, bPos =>
    (if mi > aPos ∨ mj > bPos then pushChange c tokA tokB aPos mi bPos mj else []) ++
      splitWalk c tokA tokB rest (mi + 1) (mj + 1)

/-- The LCS decomposition of an edit into sub-edits (`result` in
`splitOversized`, before the fallback guard). -/
def splitPieces (c : Corr) : List Corr :=
  let tokA := tokenizeWithOffsets c.original
  let tokB := tokenizeWithOffsets c.suggestion
  let ms := lcsTokenMatches (tokA.map Token.token) (tokB.map Token.token)
  splitWalk c tokA tokB ms 0 0

/-- check.ts `splitOversized`. -/
def splitOversized (c : Corr) (opts : ReindexOptions) : List Corr :=
  let len := c.original.length
  let words := wordCount c.original
  if len ≤ opts.oversizedChars ∧ words ≤ opts.oversizedWords then [c]
  else
    let result := splitPieces c
    let totalSpan : Nat := (result.map fun r => r.«end» - r.start).sum
    if result.length = 0 ∨ totalSpan = 0 then [c]
    else result

structure Metrics where
  total : Nat
  reindexed_count : Nat
  skipped_count : Nat
  oversized_splits_count : Nat
  /-- The source rounds the average to two decimals (`toFixed(2)`) for
  display; the exact average is carried here. -/
  avg_reindex_distance : Rat
deriving DecidableEq, Repr

structure ResolveState where
  out : List Corr
  cursor : Nat
  reindexed : Nat
  skipped : Nat
  totalDelta : Nat
  oversizedSplits : Nat
deriving DecidableEq, Repr

/-- The four-strategy location chain of the resolver loop: exact at the
(clamped) hinted span, else windowed-unique, else forward-greedy from the
cursor, else approximate local alignment. -/
def locateCorr (canonical : List Char) (opts : ReindexOptions) (cursor start0 : Nat)
    (want : List Char) : Option Nat :=
  if jsSlice canonical start0 (start0 + want.length) = want then some start0
  else
    match findUniqueInWindow canonical want start0 opts.window with
    | some i => some i
    | none =>
      match forwardGreedy canonical want cursor with
      | some i => some i
      | none => approxLocalAlign canonical want start0 opts.approxWindow opts.levCutoff opts.simThreshold

/-- One iteration of the resolver's main loop (check.ts
`reindexCorrections`, `for (const c of byHint)`).  The `rows` debug table
is purely diagnostic output and is not modelled; every skip branch below
corresponds to one `skipped`/`skipped_overlap`/`mismatch_after_reindex`
row.  In every branch `newEnd = newStart + want.length`. -/
def resolveStep (canonical : List Char) (opts : ReindexOptions)
    (st : ResolveState) (c : Corr) : ResolveState :=
  let len := canonical.length
  let start0 := min c.start len                      -- clamp(c.start, 0, len)
  let want := c.original
  match locateCorr canonical opts st.cursor start0 want with
  | none => { st with skipped := st.skipped + 1 }
  | some newStart0 =>
    -- non-overlap with the previous accepted span: move forward if needed
    let adjusted : Option Nat :=
      if newStart0 < st.cursor then forwardGreedy canonical want st.cursor
      else some newStart0
    match adjusted with
    | none => { st with skipped := st.skipped + 1 }
    | some newStart =>
      if jsSlice canonical newStart (newStart + want.length) = want then
        let corr : Corr := { c with start := newStart, «end» := newStart + want.length, original := want }
        let pieces := splitOversized corr opts
        { out := st.out ++ pieces
          cursor := ((pieces.getLast?).map Corr.«end»).getD st.cursor
          reindexed := st.reindexed + (if newStart ≠ start0 then 1 else 0)
          skipped := st.skipped
          totalDelta := st.totalDelta + (if newStart ≠ start0 then max newStart start0 - min newStart start0 else 0)
          oversizedSplits := st.oversizedSplits + (if pieces.length > 1 then pieces.length - 1 else 0) }
      else { st with skipped := st.skipped + 1 }

/-- The resolver's accumulated state after the main loop: edits sorted by
their reported start (JavaScript's stable ascending sort) and folded
through `resolveStep` from an initial cursor of `0`. -/
def resolveOut (canonical : List Char) (inputCorrs : List Corr) (opts : ReindexOptions) : ResolveState :=
  let byHint := inputCorrs.mergeSort fun a b => decide (a.start ≤ b.start)
  byHint.foldl (resolveStep canonical opts) ⟨[], 0, 0, 0, 0, 0⟩

/-- The final sort + non-overlap pass of `reindexCorrections`: walk the
start-sorted list left to right, dropping any edit starting before the end
of the previously kept edit and any zero-length span. -/
def finalPass : List Corr → Nat → List Corr
  | [], _ => []
  | c :: rest, lastEnd =>
    if c.start < lastEnd then finalPass rest lastEnd          -- drop overlaps conservatively
    else if c.«end» ≤ c.start then finalPass rest lastEnd
    else c :: finalPass rest c.«end»

structure ReindexResult where
  corrections : List Corr
  metrics : Metrics
deriving DecidableEq, Repr

/-- check.ts `reindexCorrections` (minus the `rows` debug table). -/
def reindexCorrections (canonical : List Char) (inputCorrs : List Corr)
    (opts : ReindexOptions) : ReindexResult :=
  let st := resolveOut canonical inputCorrs opts
  let cleaned := finalPass (st.out.mergeSort fun a b => decide (a.start ≤ b.start)) 0
  { corrections := cleaned
    metrics :=
      { total := inputCorrs.length
        reindexed_count := st.reindexed
        skipped_count := st.skipped
        oversized_splits_count := st.oversizedSplits
        avg_reindex_distance := if st.reindexed ≠ 0 then (st.totalDelta : Rat) / st.reindexed else 0 } }

/-! ## text.ts: hunks and the diff highlighter -/

inductive IssueType
  | spelling | grammar | punctuation | agreement | accent | diacritic | other
deriving DecidableEq, Repr, Fintype

/-- text.ts `Issue`: an edit record as consumed by the highlighter (note:
no offsets — attachment is purely by string content). -/
structure Issue where
  original : List Char
  suggestion : List Char
  type : IssueType
  explanation_en : String
  confidence : Rat
deriving DecidableEq, Repr

inductive HunkKind
  | equal | remove | insert | replace
deriving DecidableEq, Repr

structure Hunk where
  kind : HunkKind
  aStart : Nat
  aEnd : Nat
  bStart : Nat
  bEnd : Nat
  aStartOffset : Nat
  aEndOffset : Nat
  bStartOffset : Nat
  bEndOffset : Nat
deriving DecidableEq, Repr

def Hunk.aRange (h : Hunk) : Nat × Nat := (h.aStart, h.aEnd)

def Hunk.bRange (h : Hunk) : Nat × Nat := (h.bStart, h.bEnd)

/-- text.ts `pushHunk` (a closure inside `diffTokensToHunks`): build a hunk
from token-index ranges, translating them to character offsets with
`offsetsA`/`offsetsB` (= `tokOffsets`). -/
def mkHunk (tokA tokB : List Token) (kind : HunkKind)
    (aStart aEnd bStart bEnd : Nat) : Hunk :=
  let offA := tokOffsets tokA aStart aEnd
  let offB := tokOffsets tokB bStart bEnd
  { kind := kind, aStart := aStart, aEnd := aEnd, bStart := bStart, bEnd := bEnd,
    aStartOffset := offA.1, aEndOffset := offA.2,
    bStartOffset := offB.1, bEndOffset := offB.2 }

/-- The match-walk of `diffTokensToHunks`: for each LCS match emit the
change hunk for the preceding gap (replace / remove / insert) and a
one-token `equal` hunk, then handle the tail gap the same way. -/
def hunksWalk (tokA tokB : List Token) :
    List (Nat × Nat) → Nat → Nat → List Hunk
  | [], aPos, bPos =>
    let aTail := tokA.length
    let bTail := tokB.length
    if aTail > aPos ∨ bTail > bPos then
      if aTail > aPos ∧ bTail > bPos then [mkHunk tokA tokB .replace aPos aTail bPos bTail]
      else if aTail > aPos then [mkHunk tokA tokB .remove aPos aTail bPos bPos]
      else [mkHunk tokA tokB .insert aPos aPos bPos bTail]
    else []
  | (mi, mj) :: rest, aPos, bPos =>
    (if mi > aPos ∨ mj > bPos then
      if mi > aPos ∧ mj > bPos then [mkHunk tokA tokB .replace aPos mi bPos mj]
      else if mi > aPos then [mkHunk tokA tokB .remove aPos mi bPos bPos]
      else [mkHunk tokA tokB .insert aPos aPos bPos mj]
    else []) ++
    mkHunk tokA tokB .equal mi (mi + 1) mj (mj + 1) ::
      hunksWalk tokA tokB rest (mi + 1) (mj + 1)

/-- The merge of two adjacent `equal` hunks (the mutation of `last` in the
source's coalescing loop). -/
def mergeEqual (last h : Hunk) : Hunk :=
  { last with
      aEnd := h.aEnd
      bEnd := h.bEnd
      aEndOffset := h.aEndOffset
      bEndOffset := h.bEndOffset }

/-- The coalescing pass of `diffTokensToHunks`.  The source walks the hunk
list once, merging each hunk into the accumulated `last` when both are
`equal` and adjacent; merging the first two hunks and continuing is the
same left-to-right sequence of merges. -/
def coalesce : List Hunk → List Hunk
  | [] => []
  | [h] => [h]
  | h1 :: h2 :: rest =>
    if h1.kind = .equal ∧ h2.kind = .equal ∧ h1.aEnd = h2.aStart ∧ h1.bEnd = h2.bStart then
      coalesce (mergeEqual h1 h2 :: rest)
    else h1 :: coalesce (h2 :: rest)
termination_by l => l.length

/-- text.ts `diffTokensToHunks`. -/
def diffTokensToHunks (original corrected : List Char) : List Hunk :=
  let tokA := tokenizeUnicodeWords original
  let tokB := tokenizeUnicodeWords corrected
  let ms := lcsTokenMatches (tokA.map Token.token) (tokB.map Token.token)
  coalesce (hunksWalk tokA tokB ms 0 0)

/-- text.ts `hunksToOriginalSpans`: keep only `remove`/`replace` hunks'
original-side offset ranges, clamping away any overlap left to right.
(`Math.max(0, aStartOffset)` is the identity over `Nat`.) -/
def hunksToOriginalSpansAux : List Hunk → Nat → List (Nat × Nat)
  | [], _ => []
  | h :: rest, lastEnd =>
    if h.kind ≠ .remove ∧ h.kind ≠ .replace then hunksToOriginalSpansAux rest lastEnd
    else
      let start := h.aStartOffset
      let stop := max start h.aEndOffset
      if stop ≤ start then hunksToOriginalSpansAux rest lastEnd
      else if start < lastEnd then
        if stop ≤ lastEnd then hunksToOriginalSpansAux rest lastEnd
        else (lastEnd, stop) :: hunksToOriginalSpansAux rest stop
      else (start, stop) :: hunksToOriginalSpansAux rest stop

def hunksToOriginalSpans (hunks : List Hunk) : List (Nat × Nat) :=
  hunksToOriginalSpansAux hunks 0

/-- text.ts `findOccurrencesInRange`: all occurrences of `needle` in
`text` at or after `start` that end by `stop`, in ascending order; empty
needles yield no occurrences.  The scanning loop advances by at least one
per found occurrence, so `text.length + 1` rounds of fuel suffice. -/
def findOccAux (text needle : List Char) (stop : Nat) : Nat → Nat → List Nat
  | _, 0 => []
  | pos, fuel + 1 =>
    match jsIndexOf text needle pos with
    | none => []
    | some idx =>
      if idx + needle.length > stop then []
      else idx :: findOccAux text needle stop (idx + 1) fuel

def findOccurrencesInRange (text needle : List Char) (start stop : Nat) : List Nat :=
  if needle = [] then []
  else findOccAux text needle stop start (text.length + 1)

/-- text.ts `overlaps`. -/
def overlaps (aStart aEnd bStart bEnd : Nat) : Bool :=
  max aStart bStart < min aEnd bEnd

/-- text.ts `chooseSpanType`: the type of the FIRST attached issue
(`issues?.[0]?.type`), defaulting to `other`. -/
def chooseSpanType (issues : List Issue) : IssueType :=
  match issues.head? with
  | some i => i.type
  | none => .other

structure HighlightSpan where
  start : Nat
  «end» : Nat
  type : IssueType
  originalIndex : Nat
deriving DecidableEq, Repr

structure UnplacedRec where
  index : Nat
  original : List Char
  reason : String
deriving DecidableEq, Repr

structure Diagnostics where
  totalHunks : Nat
  highlightedHunks : Nat
  attachedIssues : Nat
  unplacedIssues : Nat
  unplacedSamples : List UnplacedRec
deriving DecidableEq, Repr

structure BuildHighlightsResult where
  spans : List HighlightSpan
  hunkRanges : List (Nat × Nat)
  issueToHunk : List (Option Nat)
  hunkToIssues : List (List Nat)
  diagnostics : Diagnostics
deriving DecidableEq, Repr

/-- The mutable attachment state of `buildDiffHighlights`'s issue loop. -/
structure AttachState where
  issueToHunk : List (Option Nat)
  hunkToIssues : List (List Nat)
  hunkClaims : List (List (Nat × Nat))
  unplaced : List UnplacedRec
deriving DecidableEq, Repr

/-- The candidate hunks for one issue: every span index whose range
contains at least one occurrence of `needle`, with those occurrences
(`for (let h = 0; h < ranges.length; h++) ...` in the source). -/
def candidatesAux (original needle : List Char) :
    List (Nat × Nat) → Nat → List (Nat × List Nat)
  | [], _ => []
  | r :: rs, h =>
    let pos := findOccurrencesInRange original needle r.1 r.2
    (if pos = [] then [] else [(h, pos)]) ++ candidatesAux original needle rs (h + 1)

def issueCandidates (original : List Char) (ranges : List (Nat × Nat))
    (needle : List Char) : List (Nat × List Nat) :=
  candidatesAux original needle ranges 0

/-- Does placing `needle` at `p` collide with an existing claim? -/
def collidesWith (claims : List (Nat × Nat)) (p len : Nat) : Bool :=
  claims.any fun cl => overlaps cl.1 cl.2 p (p + len)

/-- One iteration of `buildDiffHighlights`'s `issues.forEach((iss, idx))`
loop: place the issue at the first unclaimed occurrence when its original
occurs in exactly one span, otherwise record it as unplaced. -/
def attachIssue (original : List Char) (ranges : List (Nat × Nat))
    (st : AttachState) (idx : Nat) (iss : Issue) : AttachState :=
  let needle := iss.original
  if needle = [] then
    { st with unplaced := st.unplaced ++ [⟨idx, needle, "empty_original"⟩] }
  else
    match issueCandidates original ranges needle with
    | [] => { st with unplaced := st.unplaced ++ [⟨idx, needle, "no_matching_hunk"⟩] }
    | [(h, positions)] =>
      let claims := (st.hunkClaims.get? h).getD []
      match positions.find? (fun p => !collidesWith claims p needle.length) with
      | some p =>
        { st with
            hunkClaims := st.hunkClaims.set h (claims ++ [(p, p + needle.length)])
            issueToHunk := st.issueToHunk.set idx (some h)
            hunkToIssues := st.hunkToIssues.set h (((st.hunkToIssues.get? h).getD []) ++ [idx]) }
      | none => { st with unplaced := st.unplaced ++ [⟨idx, needle, "ambiguous_claimed"⟩] }
    | _ => { st with unplaced := st.unplaced ++ [⟨idx, needle, "ambiguous_multiple_hunks"⟩] }

/-- The whole issue loop, threading the index. -/
def attachAll (original : List Char) (ranges : List (Nat × Nat)) :
    AttachState → Nat → List Issue → AttachState
  | st, _, [] => st
  | st, idx, iss :: rest =>
    attachAll original ranges (attachIssue original ranges st idx iss) (idx + 1) rest

/-- The typed spans: `ranges.map((r, hunkId) => ...)`, each typed by
`chooseSpanType` of its attached issues (`hunkToIssues[hunkId].map(i =>
issues[i])`; the indices recorded by `attachIssue` are always in range, so
the out-of-range default of `filterMap get?` is never consulted). -/
def spansBuild (issues : List Issue) (hunkToIssues : List (List Nat)) :
    List (Nat × Nat) → Nat → List HighlightSpan
  | [], _ => []
  | r :: rs, hunkId =>
    let attached := (((hunkToIssues.get? hunkId).getD []).map issues.get?).reduceOption
    { start := r.1, «end» := r.2, type := chooseSpanType attached, originalIndex := hunkId } ::
      spansBuild issues hunkToIssues rs (hunkId + 1)

/-- text.ts `buildDiffHighlights`. -/
def buildDiffHighlights (original corrected : List Char) (issues : List Issue) :
    BuildHighlightsResult :=
  let hunks := diffTokensToHunks original corrected
  let ranges := hunksToOriginalSpans hunks
  let init : AttachState :=
    { issueToHunk := List.replicate issues.length none
      hunkToIssues := ranges.map fun _ => []
      hunkClaims := ranges.map fun _ => []
      unplaced := [] }
  let st := attachAll original ranges init 0 issues
  let spans := spansBuild issues st.hunkToIssues ranges 0
  { spans := spans
    hunkRanges := ranges
    issueToHunk := st.issueToHunk
    hunkToIssues := st.hunkToIssues
    diagnostics :=
      { totalHunks := hunks.length
        highlightedHunks := ranges.length
        attachedIssues := st.issueToHunk.countP Option.isSome
        unplacedIssues := st.unplaced.length
        unplacedSamples := st.unplaced.take 5 } }

/-! ## Property language

Definitions used to state the verified properties (not translations of
source code). -/

/-- A contiguous chain of half-open ranges starting at `pos` and ending
exactly at `stop`: each range starts where the previous one ended. -/
def RangeChainTo (pos stop : Nat) : List (Nat × Nat) → Prop
  | [] => pos = stop
  | r :: rs => r.1 = pos ∧ pos ≤ r.2 ∧ RangeChainTo r.2 stop rs

/-- The per-edit invariant established by the resolver: the edit's span
carves exactly its `original` out of the canonical text. -/
def GoodCorr (canonical : List Char) (c : Corr) : Prop :=
  jsSlice canonical c.start c.«end» = c.original ∧
  c.«end» = c.start + c.original.length

/-- A valid strictly-increasing pairing of equal elements of `a` and `b`
(the claim language for the LCS property). -/
def ValidPairing (a b : List α) (ps : List (Nat × Nat)) : Prop :=
  (∀ p ∈ ps, p.1 < a.length ∧ p.2 < b.length ∧ a.get? p.1 = b.get? p.2) ∧
  List.Chain' (fun p q => p.1 < q.1 ∧ p.2 < q.2) ps

/-- All positions (relative to `s`) where `needle` occurs in `s`, in
ascending order; the claim language for occurrence counting. -/
def occPositions (s needle : List Char) : List Nat :=
  (List.range (s.length + 1)).filter fun i => needle.isPrefixOf (s.drop i)

/-- The claimed majority rule for a span's display category: a category of
maximal multiplicity among the attached edits, `other` when none are
attached. -/
def IsMajorityType (t : IssueType) (ts : List IssueType) : Prop :=
  if ts = [] then t = .other else ∀ u, ts.count u ≤ ts.count t

/-- The issues attached to hunk `h` in a highlighter result, resolved to
their records. -/
def attachedIssues (r : BuildHighlightsResult) (issues : List Issue) (h : Nat) : List Issue :=
  ((((r.hunkToIssues).get? h).getD []).map issues.get?).reduceOption

/-- Sum of the lengths of the first `i` tokens. -/
def sumTake (toks : List Token) (i : Nat) : Nat :=
  ((toks.map fun t => t.token.length).take i).sum

/-! # Theorems -/

/-! ## Generic list lemmas -/

theorem find?_eq_head?_filter (p : α → Bool) (l : List α) :
    l.find? p = (l.filter p).head? := by
  induction l with
  | nil => rfl
  | cons a l ih =>
    cases h : p a with
    | true => rw [List.find?_cons_of_pos _ h, List.filter_cons_of_pos h, List.head?_cons]
    | false =>
      rw [List.find?_cons_of_neg _ (by simp [h]), List.filter_cons_of_neg (by simp [h]), ih]

theorem drop_length_takeWhile (p : α → Bool) (l : List α) :
    l.drop (l.takeWhile p).length = l.dropWhile p := by
  induction l with
  | nil => rfl
  | cons a l ih =>
    by_cases h : p a
    · simpa [List.takeWhile_cons, List.dropWhile_cons, h] using ih
    · simp [List.takeWhile_cons, List.dropWhile_cons, h]

theorem sum_take_le_sum (l : List Nat) (n : Nat) : (l.take n).sum ≤ l.sum := by
  conv_rhs => rw [← List.take_append_drop n l]
  rw [List.sum_append]
  exact Nat.le_add_right _ _

/-! ## Range chains -/

theorem rangeChainTo_le {pos stop : Nat} {rs : List (Nat × Nat)}
    (h : RangeChainTo pos stop rs) : pos ≤ stop := by
  induction rs generalizing pos with
  | nil => exact Nat.le_of_eq h
  | cons r rs ih =>
    obtain ⟨-, h2, h3⟩ := h
    exact Nat.le_trans h2 (ih h3)

theorem rangeChainTo_mem {pos stop : Nat} {rs : List (Nat × Nat)}
    (h : RangeChainTo pos stop rs) :
    ∀ r ∈ rs, pos ≤ r.1 ∧ r.1 ≤ r.2 ∧ r.2 ≤ stop := by
  induction rs generalizing pos with
  | nil => intro r hr; cases hr
  | cons r₀ rs ih =>
    obtain ⟨h1, h2, h3⟩ := h
    intro r hr
    rw [List.mem_cons] at hr
    rcases hr with rfl | hr
    · exact ⟨Nat.le_of_eq h1.symm, h1 ▸ h2, rangeChainTo_le h3⟩
    · obtain ⟨ha, hb, hc⟩ := ih h3 r hr
      exact ⟨Nat.le_trans h2 ha, hb, hc⟩

theorem rangeChainTo_chain' {pos stop : Nat} {rs : List (Nat × Nat)}
    (h : RangeChainTo pos stop rs) :
    List.Chain' (fun x y => x.2 = y.1) rs := by
  induction rs generalizing pos with
  | nil => exact List.chain'_nil
  | cons r₀ rs ih =>
    obtain ⟨h1, h2, h3⟩ := h
    refine List.chain'_cons'.2 ⟨?_, ih h3⟩
    intro y hy
    cases rs with
    | nil => simp at hy
    | cons r₁ rs =>
      simp only [List.head?_cons, Option.mem_def, Option.some.injEq] at hy
      subst hy
      exact h3.1.symm

theorem rangeChainTo_countP {pos stop : Nat} {rs : List (Nat × Nat)}
    (h : RangeChainTo pos stop rs) :
    ∀ i, pos ≤ i → i < stop →
      rs.countP (fun r => decide (r.1 ≤ i ∧ i < r.2)) = 1 := by
  induction rs generalizing pos with
  | nil =>
    intro i h1 h2
    subst h
    omega
  | cons r₀ rs ih =>
    obtain ⟨h1, h2, h3⟩ := h
    intro i hi1 hi2
    by_cases hcase : i < r₀.2
    · rw [List.countP_cons_of_pos]
      · have hz : rs.countP (fun r => decide (r.1 ≤ i ∧ i < r.2)) = 0 := by
          rw [List.countP_eq_zero]
          intro r hr
          have := (rangeChainTo_mem h3 r hr).1
          simp only [decide_eq_true_eq]
          omega
        omega
      · simp only [decide_eq_true_eq]
        omega
    · rw [List.countP_cons_of_neg]
      · exact ih h3 i (by omega) hi2
      · simp only [decide_eq_true_eq]
        omega

/-! ## Tokenizer lemmas -/

theorem runRest_append_drop (c : Char) (cs : List Char) :
    runRest c cs ++ cs.drop (runRest c cs).length = cs := by
  unfold runRest
  split_ifs <;>
    first
      | simp
      | (rw [drop_length_takeWhile]; exact List.takeWhile_append_dropWhile _ _)

theorem runRest_length_le (c : Char) (cs : List Char) :
    (runRest c cs).length ≤ cs.length := by
  have h := congrArg List.length (runRest_append_drop c cs)
  rw [List.length_append] at h
  omega

theorem tokenizeAux_flatten (l : List Char) (pos : Nat) :
    ((tokenizeAux l pos).map Token.token).flatten = l := by
  match l with
  | [] => simp [tokenizeAux]
  | c :: cs =>
    rw [tokenizeAux]
    simp only [List.map_cons, List.flatten_cons]
    rw [tokenizeAux_flatten (cs.drop (runRest c cs).length) _]
    have := runRest_append_drop c cs
    simp only [List.cons_append]
    rw [this]
termination_by l.length
decreasing_by
  simp only [List.length_drop, List.length_cons]
  omega

theorem tokenizeWithOffsets_flatten (s : List Char) :
    ((tokenizeWithOffsets s).map Token.token).flatten = s :=
  tokenizeAux_flatten s 0

theorem tokenizeAux_mem (l : List Char) (pos : Nat) :
    ∀ t ∈ tokenizeAux l pos, t.«end» = t.start + t.token.length ∧ t.token ≠ [] := by
  match l with
  | [] => intro t ht; simp [tokenizeAux] at ht
  | c :: cs =>
    intro t ht
    rw [tokenizeAux] at ht
    simp only [List.mem_cons] at ht
    rcases ht with rfl | ht
    · simp
    · exact tokenizeAux_mem (cs.drop (runRest c cs).length) _ t ht
termination_by l.length
decreasing_by
  simp only [List.length_drop, List.length_cons]
  omega

theorem tokenizeAux_chain (l : List Char) (pos : Nat) :
    RangeChainTo pos (pos + l.length)
      ((tokenizeAux l pos).map fun t => (t.start, t.«end»)) := by
  match l with
  | [] => simp [tokenizeAux, RangeChainTo]
  | c :: cs =>
    rw [tokenizeAux]
    simp only [List.map_cons]
    refine ⟨rfl, by omega, ?_⟩
    have ih := tokenizeAux_chain (cs.drop (runRest c cs).length) (pos + ((runRest c cs).length + 1))
    have hlen : (cs.drop (runRest c cs).length).length = cs.length - (runRest c cs).length :=
      List.length_drop _ _
    have hle := runRest_length_le c cs
    have : pos + ((runRest c cs).length + 1) + (cs.drop (runRest c cs).length).length
        = pos + (c :: cs).length := by
      rw [hlen]
      simp only [List.length_cons]
      omega
    rw [this] at ih
    exact ih
termination_by l.length
decreasing_by
  simp only [List.length_drop, List.length_cons]
  omega

/-- C5: the tokenizer partitions its input: every token is a nonempty run
whose range lies inside the string, consecutive token ranges are contiguous
(no gaps, no overlaps), every character index lies in exactly one token's
range, and concatenating the tokens' text reconstructs the input. -/
theorem claim_C5_tokenizer_partition (s : List Char) :
    (((tokenizeWithOffsets s).map Token.token).flatten = s) ∧
    (∀ t ∈ tokenizeWithOffsets s,
      t.«end» = t.start + t.token.length ∧ t.token ≠ [] ∧ t.«end» ≤ s.length) ∧
    List.Chain' (fun a b => a.«end» = b.start) (tokenizeWithOffsets s) ∧
    (∀ i, i < s.length →
      (tokenizeWithOffsets s).countP (fun t => decide (t.start ≤ i ∧ i < t.«end»)) = 1) := by
  have hchain := tokenizeAux_chain s 0
  rw [Nat.zero_add] at hchain
  refine ⟨tokenizeWithOffsets_flatten s, ?_, ?_, ?_⟩
  · intro t ht
    obtain ⟨h1, h2⟩ := tokenizeAux_mem s 0 t ht
    refine ⟨h1, h2, ?_⟩
    have := rangeChainTo_mem hchain (t.start, t.«end»)
      (List.mem_map_of_mem (fun t => (t.start, t.«end»)) ht)
    exact this.2.2
  · have := rangeChainTo_chain' hchain
    rw [List.chain'_map] at this
    exact this
  · intro i hi
    have := rangeChainTo_countP hchain i (Nat.zero_le i) hi
    rwa [List.countP_map] at this

/-- Witness for C5 at a concrete string: index 3 of `"ab 7x"` lies in
exactly one token. -/
theorem claim_C5_witness :
    (tokenizeWithOffsets ("ab 7x".toList)).countP
      (fun t => decide (t.start ≤ 3 ∧ 3 < t.«end»)) = 1 :=
  (claim_C5_tokenizer_partition ("ab 7x".toList)).2.2.2 3 (by decide)

/-! ## LCS lemmas -/

theorem lcsWalk_length [DecidableEq α] (a b : List α) (i j : Nat) :
    (lcsWalk a b i j).length = lcsLen a b := by
  match a, b with
  | [], b => simp [lcsWalk, lcsLen]
  | a₀ :: as, [] => simp [lcsWalk, lcsLen]
  | a₀ :: as, b₀ :: bs =>
    rw [lcsWalk, lcsLen]
    by_cases h : a₀ = b₀
    · simp only [if_pos h, List.length_cons]
      rw [lcsWalk_length as bs (i + 1) (j + 1)]
    · simp only [if_neg h]
      by_cases h2 : lcsLen as (b₀ :: bs) ≥ lcsLen (a₀ :: as) bs
      · rw [if_pos h2, lcsWalk_length as (b₀ :: bs) (i + 1) j]
        omega
      · rw [if_neg h2, lcsWalk_length (a₀ :: as) bs i (j + 1)]
        omega
termination_by a.length + b.length

theorem lcsWalk_valid [DecidableEq α] (a b : List α) (i j : Nat) :
    (∀ p ∈ lcsWalk a b i j,
        i ≤ p.1 ∧ j ≤ p.2 ∧ p.1 - i < a.length ∧ p.2 - j < b.length ∧
        a.get? (p.1 - i) = b.get? (p.2 - j)) ∧
    List.Chain' (fun p q => p.1 < q.1 ∧ p.2 < q.2) (lcsWalk a b i j) := by
  match a, b with
  | [], b => simp [lcsWalk]
  | a₀ :: as, [] => simp [lcsWalk]
  | a₀ :: as, b₀ :: bs =>
    rw [lcsWalk]
    by_cases h : a₀ = b₀
    · rw [if_pos h]
      obtain ⟨ihm, ihc⟩ := lcsWalk_valid as bs (i + 1) (j + 1)
      constructor
      · intro p hp
        rw [List.mem_cons] at hp
        rcases hp with rfl | hp
        · simpa using h
        · obtain ⟨h1, h2, h3, h4, h5⟩ := ihm p hp
          have e1 : p.1 - i = (p.1 - (i + 1)) + 1 := by omega
          have e2 : p.2 - j = (p.2 - (j + 1)) + 1 := by omega
          refine ⟨by omega, by omega, ?_, ?_, ?_⟩
          · simp only [List.length_cons]; omega
          · simp only [List.length_cons]; omega
          · rw [e1, e2, List.get?_cons_succ, List.get?_cons_succ]
            exact h5
      · refine List.chain'_cons'.2 ⟨?_, ihc⟩
        intro q hq
        have hq' := List.mem_of_mem_head? hq
        obtain ⟨h1, h2, -⟩ := ihm q hq'
        exact ⟨by omega, by omega⟩
    · rw [if_neg h]
      by_cases h2 : lcsLen as (b₀ :: bs) ≥ lcsLen (a₀ :: as) bs
      · rw [if_pos h2]
        obtain ⟨ihm, ihc⟩ := lcsWalk_valid as (b₀ :: bs) (i + 1) j
        refine ⟨?_, ihc⟩
        intro p hp
        obtain ⟨h1, h2', h3, h4, h5⟩ := ihm p hp
        have e1 : p.1 - i = (p.1 - (i + 1)) + 1 := by omega
        refine ⟨by omega, h2', ?_, h4, ?_⟩
        · simp only [List.length_cons]; omega
        · rw [e1, List.get?_cons_succ]
          exact h5
      · rw [if_neg h2]
        obtain ⟨ihm, ihc⟩ := lcsWalk_valid (a₀ :: as) bs i (j + 1)
        refine ⟨?_, ihc⟩
        intro p hp
        obtain ⟨h1, h2', h3, h4, h5⟩ := ihm p hp
        have e2 : p.2 - j = (p.2 - (j + 1)) + 1 := by omega
        refine ⟨h1, by omega, h3, ?_, ?_⟩
        · simp only [List.length_cons]; omega
        · rw [e2, List.get?_cons_succ]
          exact h5
termination_by a.length + b.length

theorem sublist_length_le_lcsLen [DecidableEq α] (a b s : List α)
    (ha : s.Sublist a) (hb : s.Sublist b) : s.length ≤ lcsLen a b := by
  match a, b with
  | [], b =>
    have hs : s = [] := List.sublist_nil.mp ha
    simp [hs]
  | a₀ :: as, [] =>
    have hs : s = [] := List.sublist_nil.mp hb
    simp [hs]
  | a₀ :: as, b₀ :: bs =>
    rw [lcsLen]
    by_cases h : a₀ = b₀
    · rw [if_pos h]
      cases s with
      | nil => simp
      | cons x t =>
        cases ha with
        | cons _ ha' =>
          cases hb with
          | cons _ hb' =>
            have := sublist_length_le_lcsLen as bs (x :: t) ha' hb'
            omega
          | cons₂ _ hb' =>
            have ht : t.Sublist as := (List.sublist_cons_self _ t).trans ha'
            have := sublist_length_le_lcsLen as bs t ht hb'
            simp only [List.length_cons]
            omega
        | cons₂ _ ha' =>
          cases hb with
          | cons _ hb' =>
            have ht : t.Sublist bs := (List.sublist_cons_self _ t).trans hb'
            have := sublist_length_le_lcsLen as bs t ha' ht
            simp only [List.length_cons]
            omega
          | cons₂ _ hb' =>
            have := sublist_length_le_lcsLen as bs t ha' hb'
            simp only [List.length_cons]
            omega
    · rw [if_neg h]
      cases s with
      | nil => simp
      | cons x t =>
        cases ha with
        | cons _ ha' =>
          have := sublist_length_le_lcsLen as (b₀ :: bs) (x :: t) ha' hb
          omega
        | cons₂ _ ha' =>
          cases hb with
          | cons _ hb' =>
            have := sublist_length_le_lcsLen (a₀ :: as) bs (a₀ :: t)
              (List.Sublist.cons₂ a₀ ha') hb'
            omega
          | cons₂ _ hb' => exact absurd rfl h
termination_by a.length + b.length

theorem getD_of_get? (l : List α) (n : Nat) (d v : α) (h : l.get? n = some v) :
    l.getD n d = v := by
  induction l generalizing n with
  | nil => simp at h
  | cons a l ih =>
    cases n with
    | zero => simp at h; simpa using h
    | succ n =>
      rw [List.get?_cons_succ] at h
      simpa using ih n h

theorem sublist_of_increasing_getD (l : List α) (d : α) :
    ∀ is : List Nat, is.Pairwise (· < ·) → (∀ i ∈ is, i < l.length) →
      (is.map fun i => l.getD i d).Sublist l := by
  induction l with
  | nil =>
    intro is _ hbnd
    have hnil : is = [] := by
      cases is with
      | nil => rfl
      | cons i is => exact absurd (hbnd i (List.mem_cons_self i is)) (by simp)
    simp [hnil]
  | cons x l ih =>
    intro is hinc hbnd
    cases is with
    | nil => simp
    | cons i is' =>
      have htail : ∀ j ∈ is', i < j := fun j hj => (List.pairwise_cons.mp hinc).1 j hj
      by_cases hi : i = 0
      · subst hi
        have hmap : is'.map (fun i => (x :: l).getD i d)
            = (is'.map fun j => j - 1).map fun i => l.getD i d := by
          rw [List.map_map]
          apply List.map_congr_left
          intro j hj
          have h1 : 1 ≤ j := by have := htail j hj; omega
          obtain ⟨k, rfl⟩ : ∃ k, j = k + 1 := ⟨j - 1, by omega⟩
          simp [List.getD_cons_succ]
        have hsub : ((is'.map fun j => j - 1).map fun i => l.getD i d).Sublist l := by
          apply ih
          · rw [List.pairwise_map]
            refine (List.pairwise_cons.mp hinc).2.imp_of_mem ?_
            intro a b hma hmb hab
            have h1 := htail a hma
            have h2 := htail b hmb
            omega
          · intro k hk
            rw [List.mem_map] at hk
            obtain ⟨j, hj, rfl⟩ := hk
            have h1 := htail j hj
            have h2 := hbnd j (List.mem_cons_of_mem _ hj)
            simp only [List.length_cons] at h2
            omega
        simp only [List.map_cons, List.getD_cons_zero]
        rw [hmap]
        exact hsub.cons₂ x
      · have hpos : ∀ j ∈ i :: is', 1 ≤ j := by
          intro j hj
          rcases List.mem_cons.mp hj with rfl | hj
          · omega
          · have := htail j hj; omega
        have hmap : (i :: is').map (fun i => (x :: l).getD i d)
            = ((i :: is').map fun j => j - 1).map fun i => l.getD i d := by
          rw [List.map_map]
          apply List.map_congr_left
          intro j hj
          have h1 : 1 ≤ j := hpos j hj
          obtain ⟨k, rfl⟩ : ∃ k, j = k + 1 := ⟨j - 1, by omega⟩
          simp [List.getD_cons_succ]
        rw [hmap]
        refine List.Sublist.cons x ?_
        apply ih
        · rw [List.pairwise_map]
          refine hinc.imp_of_mem ?_
          intro a b hma hmb hab
          have h1 := hpos a hma
          have h2 := hpos b hmb
          omega
        · intro k hk
          rw [List.mem_map] at hk
          obtain ⟨j, hj, rfl⟩ := hk
          have h1 := hpos j hj
          have h2 := hbnd j hj
          simp only [List.length_cons] at h2
          omega

theorem validPairing_length_le [DecidableEq α] [Inhabited α] (a b : List α)
    (ps : List (Nat × Nat)) (h : ValidPairing a b ps) : ps.length ≤ lcsLen a b := by
  obtain ⟨hmem, hchain⟩ := h
  have hpw : ps.Pairwise fun p q => p.1 < q.1 ∧ p.2 < q.2 := by
    haveI : IsTrans (Nat × Nat) (fun p q => p.1 < q.1 ∧ p.2 < q.2) :=
      ⟨fun p q r h1 h2 => ⟨Nat.lt_trans h1.1 h2.1, Nat.lt_trans h1.2 h2.2⟩⟩
    exact List.chain'_iff_pairwise.mp hchain
  have hsa : (ps.map fun p => a.getD p.1 default).Sublist a := by
    have heq : (ps.map fun p => a.getD p.1 default)
        = (ps.map Prod.fst).map fun i => a.getD i default := by
      rw [List.map_map]; rfl
    rw [heq]
    apply sublist_of_increasing_getD
    · rw [List.pairwise_map]
      exact hpw.imp fun h => h.1
    · intro i hi
      rw [List.mem_map] at hi
      obtain ⟨p, hp, rfl⟩ := hi
      exact (hmem p hp).1
  have hsb : (ps.map fun p => a.getD p.1 default).Sublist b := by
    have heq : (ps.map fun p => a.getD p.1 default)
        = (ps.map Prod.snd).map fun j => b.getD j default := by
      rw [List.map_map]
      apply List.map_congr_left
      intro p hp
      obtain ⟨h1, h2, h3⟩ := hmem p hp
      have hva : a.get? p.1 = some (a.get ⟨p.1, h1⟩) := List.get?_eq_get h1
      have hvb : b.get? p.2 = some (b.get ⟨p.2, h2⟩) := List.get?_eq_get h2
      have hv : a.get ⟨p.1, h1⟩ = b.get ⟨p.2, h2⟩ := by
        have := hva.symm.trans (h3.trans hvb)
        exact Option.some.inj this
      show a.getD p.1 default = b.getD p.2 default
      rw [getD_of_get? a p.1 default _ hva, getD_of_get? b p.2 default _ hvb]
      exact hv
    rw [heq]
    apply sublist_of_increasing_getD
    · rw [List.pairwise_map]
      exact hpw.imp fun h => h.2
    · intro j hj
      rw [List.mem_map] at hj
      obtain ⟨p, hp, rfl⟩ := hj
      exact (hmem p hp).2.1
  have := sublist_length_le_lcsLen a b _ hsa hsb
  rwa [List.length_map] at this

/-- C6: `lcsTokenMatches` returns index pairs of equal elements, strictly
increasing in both coordinates, realising the longest common subsequence:
no valid strictly-increasing pairing of equal elements is longer. -/
theorem claim_C6_lcs_matches (a b : List (List Char)) :
    ValidPairing a b (lcsTokenMatches a b) ∧
    (lcsTokenMatches a b).length = lcsLen a b ∧
    (∀ ps, ValidPairing a b ps → ps.length ≤ (lcsTokenMatches a b).length) := by
  obtain ⟨hm, hc⟩ := lcsWalk_valid a b 0 0
  refine ⟨⟨?_, hc⟩, lcsWalk_length a b 0 0, ?_⟩
  · intro p hp
    obtain ⟨-, -, h3, h4, h5⟩ := hm p hp
    simp only [Nat.sub_zero] at h3 h4 h5
    exact ⟨h3, h4, h5⟩
  · intro ps hps
    have h1 := validPairing_length_le a b ps hps
    have h2 := lcsWalk_length a b 0 0
    unfold lcsTokenMatches
    omega

/-- Witness for C6 at concrete sequences: the pairing `[(1, 0)]` of
`["x", "y"]` with `["y"]` is valid and no longer than the returned LCS. -/
theorem claim_C6_witness :
    ValidPairing ["x".toList, "y".toList] ["y".toList] [(1, 0)] ∧
    ([((1 : Nat), (0 : Nat))].length
      ≤ (lcsTokenMatches ["x".toList, "y".toList] ["y".toList]).length) := by
  have hvp : ValidPairing ["x".toList, "y".toList] ["y".toList] [(1, 0)] := by
    constructor
    · intro p hp
      rw [List.mem_singleton] at hp
      subst hp
      refine ⟨by decide, by decide, by decide⟩
    · simp
  exact ⟨hvp, (claim_C6_lcs_matches ["x".toList, "y".toList] ["y".toList]).2.2 [(1, 0)] hvp⟩

/-! ## Occurrence search and the windowed-unique locator -/

theorem jsIndexOf_zero_eq_head (text needle : List Char) :
    jsIndexOf text needle 0 = (occPositions text needle).head? := by
  unfold jsIndexOf occPositions
  rw [find?_eq_head?_filter]
  congr 1
  apply List.filter_congr
  intro i _
  simp

theorem occPositions_sorted (text needle : List Char) :
    (occPositions text needle).Pairwise (· < ·) :=
  (List.pairwise_lt_range _).filter _

theorem occPositions_mem {text needle : List Char} {i : Nat}
    (h : i ∈ occPositions text needle) :
    i ≤ text.length ∧ needle.isPrefixOf (text.drop i) := by
  unfold occPositions at h
  rw [List.mem_filter, List.mem_range] at h
  exact ⟨by omega, h.2⟩

theorem mem_occPositions {text needle : List Char} {i : Nat}
    (h1 : i ≤ text.length) (h2 : needle.isPrefixOf (text.drop i)) :
    i ∈ occPositions text needle := by
  unfold occPositions
  rw [List.mem_filter, List.mem_range]
  exact ⟨by omega, h2⟩

theorem jsIndexOf_isSome_iff (text needle : List Char) (fromIdx : Nat) :
    (jsIndexOf text needle fromIdx).isSome ↔
      ∃ i, min fromIdx text.length ≤ i ∧ i ≤ text.length ∧
        needle.isPrefixOf (text.drop i) := by
  unfold jsIndexOf
  rw [List.find?_isSome]
  constructor
  · rintro ⟨i, hmem, hp⟩
    rw [List.mem_range] at hmem
    rw [Bool.and_eq_true, decide_eq_true_eq] at hp
    exact ⟨i, hp.1, by omega, hp.2⟩
  · rintro ⟨i, h1, h2, h3⟩
    refine ⟨i, List.mem_range.2 (by omega), ?_⟩
    rw [Bool.and_eq_true, decide_eq_true_eq]
    exact ⟨h1, h3⟩

/-- A match of a nonempty needle sits strictly inside the text. -/
theorem occ_lt_length {text needle : List Char} {i : Nat} (hne : needle ≠ [])
    (h : i ∈ occPositions text needle) : i < text.length := by
  obtain ⟨h1, h2⟩ := occPositions_mem h
  have hp := (List.isPrefixOf_iff_prefix.mp h2).length_le
  rw [List.length_drop] at hp
  have : 1 ≤ needle.length := by
    cases needle with
    | nil => exact absurd rfl hne
    | cons _ _ => simp
  omega

/-- C7: for a nonempty needle, the windowed-unique strategy returns an
offset exactly when the needle occurs exactly once inside the clamped
window slice, and then the offset is that unique occurrence's absolute
position; with zero or two-or-more occurrences it returns `none`. -/
theorem claim_C7_window_unique (text needle : List Char) (hintStart w a b : Nat)
    (hne : needle ≠ []) (hab : (a, b) = windowBounds text.length hintStart w) :
    ((occPositions (jsSlice text a b) needle).length = 1 →
      findUniqueInWindow text needle hintStart w
        = some (a + (occPositions (jsSlice text a b) needle).headD 0)) ∧
    ((occPositions (jsSlice text a b) needle).length ≠ 1 →
      findUniqueInWindow text needle hintStart w = none) := by
  have ha : a = (windowBounds text.length hintStart w).1 := by rw [← hab]
  have hb : b = (windowBounds text.length hintStart w).2 := by rw [← hab]
  subst ha
  subst hb
  unfold findUniqueInWindow
  dsimp only
  set slice := jsSlice text (windowBounds text.length hintStart w).1
    (windowBounds text.length hintStart w).2 with hslice
  rw [jsIndexOf_zero_eq_head]
  cases hocc : occPositions slice needle with
  | nil => simp [hocc]
  | cons m1 rest =>
    simp only [List.head?_cons]
    have hm1 : m1 ∈ occPositions slice needle := by rw [hocc]; exact List.mem_cons_self _ _
    have hm1lt : m1 < slice.length := occ_lt_length hne hm1
    cases rest with
    | nil =>
      have hnone : jsIndexOf slice needle (m1 + 1) = none := by
        rw [← Option.not_isSome_iff_eq_none]
        intro hsome
        obtain ⟨i, h1, h2, h3⟩ := (jsIndexOf_isSome_iff slice needle (m1 + 1)).mp hsome
        have : i ∈ occPositions slice needle := mem_occPositions h2 h3
        rw [hocc, List.mem_singleton] at this
        omega
      rw [hnone]
      constructor
      · intro _
        simp
      · intro hlen
        exact absurd rfl hlen
    | cons m2 rest2 =>
      have hm2 : m2 ∈ occPositions slice needle := by
        rw [hocc]; exact List.mem_cons_of_mem _ (List.mem_cons_self _ _)
      have hm2gt : m1 < m2 := by
        have := occPositions_sorted slice needle
        rw [hocc] at this
        exact (List.pairwise_cons.mp this).1 m2 (List.mem_cons_self _ _)
      have hsome : (jsIndexOf slice needle (m1 + 1)).isSome := by
        rw [jsIndexOf_isSome_iff]
        obtain ⟨hle, hpre⟩ := occPositions_mem hm2
        exact ⟨m2, by omega, hle, hpre⟩
      rw [Option.isSome_iff_exists] at hsome
      obtain ⟨v, hv⟩ := hsome
      rw [hv]
      constructor
      · intro hlen
        simp at hlen
      · intro _
        rfl

/-- Witness for C7: in `"abcabc"` with hint `0` and window `2`, the slice
`"ab"` contains exactly one `"b"`, found at absolute offset 1. -/
theorem claim_C7_witness :
    findUniqueInWindow ("abcabc".toList) ("b".toList) 0 2 = some 1 := by
  have h := claim_C7_window_unique ("abcabc".toList) ("b".toList) 0 2 0 2
    (by decide) (by decide)
  have h1 : (occPositions (jsSlice ("abcabc".toList) 0 2) ("b".toList)).length = 1 := by decide
  have := h.1 h1
  rw [this]
  decide

/-! ## Oversized splitting -/

/-- C8: `splitOversized` never returns an empty list; a non-oversized edit
is returned unchanged as `[edit]`; and when the LCS decomposition yields no
sub-edits, or only sub-edits of total span zero, the unsplit edit is
returned. -/
theorem claim_C8_split_fallback (c : Corr) (opts : ReindexOptions) :
    splitOversized c opts ≠ [] ∧
    (c.original.length ≤ opts.oversizedChars ∧ wordCount c.original ≤ opts.oversizedWords →
      splitOversized c opts = [c]) ∧
    (¬(c.original.length ≤ opts.oversizedChars ∧ wordCount c.original ≤ opts.oversizedWords) →
      (splitPieces c = [] ∨ ((splitPieces c).map fun r => r.«end» - r.start).sum = 0) →
      splitOversized c opts = [c]) := by
  unfold splitOversized
  by_cases hsmall : c.original.length ≤ opts.oversizedChars ∧
      wordCount c.original ≤ opts.oversizedWords
  · rw [if_pos hsmall]
    exact ⟨by simp, fun _ => rfl, fun h => absurd hsmall h⟩
  · rw [if_neg hsmall]
    by_cases hfb : (splitPieces c).length = 0 ∨
        ((splitPieces c).map fun r => r.«end» - r.start).sum = 0
    · rw [if_pos hfb]
      exact ⟨by simp, fun h => absurd h hsmall, fun _ _ => rfl⟩
    · rw [if_neg hfb]
      refine ⟨?_, fun h => absurd h hsmall, ?_⟩
      · intro hnil
        exact hfb (Or.inl (by rw [hnil]; rfl))
      · intro _ h
        rcases h with h | h
        · exact absurd (Or.inl (by rw [h]; rfl)) hfb
        · exact absurd (Or.inr h) hfb

unseal wordCount in
theorem claim_C8_witness :
    splitOversized ⟨0, 4, "hola".toList, "ola".toList, "spelling", "e", 1⟩
        ⟨60, 120, 3, (4 : Rat) / 5, 48, 6⟩
      = [⟨0, 4, "hola".toList, "ola".toList, "spelling", "e", 1⟩] :=
  (claim_C8_split_fallback _ _).2.1 (by constructor <;> decide)

/-! ## Token offset arithmetic -/

theorem sumTake_zero (toks : List Token) : sumTake toks 0 = 0 := rfl

theorem sumTake_cons (t : Token) (ts : List Token) (i : Nat) :
    sumTake (t :: ts) (i + 1) = t.token.length + sumTake ts i := by
  simp [sumTake, List.take_succ_cons]

theorem sumTake_le_sumTake (toks : List Token) {i j : Nat} (h : i ≤ j) :
    sumTake toks i ≤ sumTake toks j := by
  unfold sumTake
  have heq : (toks.map fun t => t.token.length).take i
      = ((toks.map fun t => t.token.length).take j).take i := by
    rw [List.take_take, Nat.min_eq_left h]
  rw [heq]
  exact sum_take_le_sum _ _

theorem sumTake_all (toks : List Token) {i : Nat} (h : toks.length ≤ i) :
    sumTake toks i = sumTake toks toks.length := by
  unfold sumTake
  rw [List.take_of_length_le (by simpa using h), List.take_of_length_le (by simp)]

theorem tokenizeAux_sumTake_total (l : List Char) (pos : Nat) :
    sumTake (tokenizeAux l pos) (tokenizeAux l pos).length = l.length := by
  unfold sumTake
  rw [List.take_of_length_le (by simp)]
  have h := congrArg List.length (tokenizeAux_flatten l pos)
  rw [List.length_flatten, List.map_map] at h
  exact h

theorem tokenizeAux_get? (l : List Char) (pos i : Nat) (t : Token) :
    (tokenizeAux l pos).get? i = some t →
      t.start = pos + sumTake (tokenizeAux l pos) i ∧
      t.«end» = pos + sumTake (tokenizeAux l pos) (i + 1) := by
  match l with
  | [] => intro h; simp [tokenizeAux] at h
  | c :: cs =>
    rw [tokenizeAux]
    cases i with
    | zero =>
      intro h
      rw [List.get?_cons_zero, Option.some.injEq] at h
      subst h
      refine ⟨by simp [sumTake_zero], ?_⟩
      rw [sumTake_cons]
      simp [sumTake_zero]
    | succ i =>
      intro h
      rw [List.get?_cons_succ] at h
      have ih := tokenizeAux_get? (cs.drop (runRest c cs).length)
        (pos + ((runRest c cs).length + 1)) i t h
      rw [sumTake_cons, sumTake_cons]
      constructor
      · rw [ih.1]
        simp only [List.length_cons]
        omega
      · rw [ih.2]
        simp only [List.length_cons]
        omega
termination_by l.length
decreasing_by
  all_goals
    simp only [List.length_drop, List.length_cons]
    omega

theorem tokenizeAux_getLast_end (l : List Char) (pos : Nat) (t : Token)
    (h : (tokenizeAux l pos).getLast? = some t) : t.«end» = pos + l.length := by
  rw [List.getLast?_eq_get? _] at h
  have hne : tokenizeAux l pos ≠ [] := by
    intro hnil
    rw [hnil] at h
    simp at h
  have hlen : 1 ≤ (tokenizeAux l pos).length := by
    cases hl : tokenizeAux l pos with
    | nil => exact absurd hl hne
    | cons _ _ => simp
  have := (tokenizeAux_get? l pos ((tokenizeAux l pos).length - 1) t h).2
  rw [this]
  have he : (tokenizeAux l pos).length - 1 + 1 = (tokenizeAux l pos).length := by omega
  rw [he, tokenizeAux_sumTake_total]

theorem tokenizeWithOffsets_get? (s : List Char) (i : Nat) (t : Token)
    (h : (tokenizeWithOffsets s).get? i = some t) :
    t.start = sumTake (tokenizeWithOffsets s) i ∧
    t.«end» = sumTake (tokenizeWithOffsets s) (i + 1) := by
  have h2 := tokenizeAux_get? s 0 i t h
  simp only [Nat.zero_add] at h2
  exact h2

theorem tokenizeWithOffsets_getLast_end (s : List Char) (t : Token)
    (h : (tokenizeWithOffsets s).getLast? = some t) : t.«end» = s.length := by
  have h2 := tokenizeAux_getLast_end s 0 t h
  simpa using h2

theorem tokenizeWithOffsets_sumTake_total (s : List Char) :
    sumTake (tokenizeWithOffsets s) (tokenizeWithOffsets s).length = s.length :=
  tokenizeAux_sumTake_total s 0

theorem tokOffsets_eq (s : List Char) (i j : Nat) (hij : i ≤ j)
    (hj : j ≤ (tokenizeWithOffsets s).length) :
    tokOffsets (tokenizeWithOffsets s) i j
      = (sumTake (tokenizeWithOffsets s) i, sumTake (tokenizeWithOffsets s) j) := by
  have hstart :
      (match (tokenizeWithOffsets s).get? i with
        | some t => t.start
        | none =>
          match (tokenizeWithOffsets s).getLast? with
          | some t => t.«end»
          | none => 0) = sumTake (tokenizeWithOffsets s) i := by
    cases hget : (tokenizeWithOffsets s).get? i with
    | some t => exact (tokenizeWithOffsets_get? s i t hget).1
    | none =>
      have hlen : (tokenizeWithOffsets s).length ≤ i := List.get?_eq_none.mp hget
      cases hlast : (tokenizeWithOffsets s).getLast? with
      | some t =>
        rw [sumTake_all _ hlen, tokenizeWithOffsets_sumTake_total]
        exact tokenizeWithOffsets_getLast_end s t hlast
      | none =>
        have hnil : tokenizeWithOffsets s = [] := by
          cases hl : tokenizeWithOffsets s with
          | nil => rfl
          | cons x xs =>
            rw [hl] at hlast
            simp [List.getLast?] at hlast
        rw [sumTake_all _ hlen, hnil]
        rfl
  unfold tokOffsets
  dsimp only
  rw [hstart]
  congr 1
  by_cases hjpos : j > 0
  · rw [if_pos hjpos]
    have hj1 : j - 1 < (tokenizeWithOffsets s).length := by omega
    have hget : (tokenizeWithOffsets s).get? (j - 1)
        = some ((tokenizeWithOffsets s).get ⟨j - 1, hj1⟩) := List.get?_eq_get hj1
    rw [hget]
    have h2 := (tokenizeWithOffsets_get? s (j - 1) _ hget).2
    have he : j - 1 + 1 = j := by omega
    rw [he] at h2
    exact h2
  · rw [if_neg hjpos]
    have hj0 : j = 0 := by omega
    have hi0 : i = 0 := by omega
    subst hj0
    subst hi0
    rfl

/-! ## Slice arithmetic -/

theorem jsSlice_length (l : List Char) (s e : Nat) :
    (jsSlice l s e).length = min (e - s) (l.length - s) := by
  simp [jsSlice]

theorem jsSlice_of_slice (t : List Char) (s L x y : Nat) (hy : y ≤ L) :
    jsSlice (jsSlice t s (s + L)) x y = jsSlice t (s + x) (s + y) := by
  unfold jsSlice
  have h1 : s + L - s = L := by omega
  rw [h1, List.drop_take, List.take_take, List.drop_drop]
  congr 1
  omega

/-! ## The resolver's per-edit invariant -/

theorem mem_pushChange {c : Corr} {tokA tokB : List Token} {aS aE bS bE : Nat} {p : Corr}
    (hp : p ∈ pushChange c tokA tokB aS aE bS bE) :
    p.start = c.start + (tokOffsets tokA aS aE).1 ∧
    p.«end» = c.start + (tokOffsets tokA aS aE).2 ∧
    p.original = jsSlice c.original (tokOffsets tokA aS aE).1 (tokOffsets tokA aS aE).2 := by
  unfold pushChange at hp
  split at hp
  · simp at hp
  · dsimp only at hp
    split at hp
    · simp at hp
    · rw [List.mem_singleton] at hp
      subst hp
      exact ⟨rfl, rfl, rfl⟩

theorem pushChange_good (canonical : List Char) (c : Corr) (hgood : GoodCorr canonical c)
    (tokB : List Token) (aS aE bS bE : Nat) (haSE : aS ≤ aE)
    (haE : aE ≤ (tokenizeWithOffsets c.original).length) :
    ∀ p ∈ pushChange c (tokenizeWithOffsets c.original) tokB aS aE bS bE,
      GoodCorr canonical p := by
  intro p hp
  obtain ⟨hstart, hend, horig⟩ := mem_pushChange hp
  rw [tokOffsets_eq c.original aS aE haSE haE] at hstart hend horig
  dsimp only at hstart hend horig
  have h1 : sumTake (tokenizeWithOffsets c.original) aS
      ≤ sumTake (tokenizeWithOffsets c.original) aE := sumTake_le_sumTake _ haSE
  have h2 : sumTake (tokenizeWithOffsets c.original) aE ≤ c.original.length := by
    have ha := sumTake_le_sumTake (tokenizeWithOffsets c.original) haE
    rwa [tokenizeWithOffsets_sumTake_total] at ha
  obtain ⟨hslice, hlen⟩ := hgood
  constructor
  · rw [hstart, hend, horig]
    have hs := jsSlice_of_slice canonical c.start c.original.length
      (sumTake (tokenizeWithOffsets c.original) aS)
      (sumTake (tokenizeWithOffsets c.original) aE) h2
    rw [← hlen, hslice] at hs
    exact hs.symm
  · rw [hstart, hend, horig, jsSlice_length]
    omega

theorem splitWalk_good (canonical : List Char) (c : Corr) (hgood : GoodCorr canonical c)
    (tokB : List Token) :
    ∀ (ms : List (Nat × Nat)) (aPos bPos : Nat),
      (∀ q ∈ ms, aPos ≤ q.1 ∧ q.1 < (tokenizeWithOffsets c.original).length) →
      ms.Pairwise (fun q r => q.1 < r.1 ∧ q.2 < r.2) →
      aPos ≤ (tokenizeWithOffsets c.original).length →
      ∀ p ∈ splitWalk c (tokenizeWithOffsets c.original) tokB ms aPos bPos,
        GoodCorr canonical p := by
  intro ms
  induction ms with
  | nil =>
    intro aPos bPos _ _ haPos p hp
    exact pushChange_good canonical c hgood tokB aPos _ bPos _ haPos (Nat.le_refl _) p hp
  | cons m rest ih =>
    intro aPos bPos hbnd hpw haPos p hp
    rw [splitWalk, List.mem_append] at hp
    have hm := hbnd m (List.mem_cons_self m rest)
    rcases hp with hp | hp
    · split at hp
      · exact pushChange_good canonical c hgood tokB aPos m.1 bPos m.2 hm.1
          (Nat.le_of_lt hm.2) p hp
      · simp at hp
    · refine ih (m.1 + 1) (m.2 + 1) ?_ (List.pairwise_cons.mp hpw).2 (by omega) p hp
      intro q hq
      have h1 := hbnd q (List.mem_cons_of_mem m hq)
      have h2 := (List.pairwise_cons.mp hpw).1 q hq
      exact ⟨by omega, h1.2⟩

theorem splitPieces_good (canonical : List Char) (c : Corr) (hgood : GoodCorr canonical c) :
    ∀ p ∈ splitPieces c, GoodCorr canonical p := by
  intro p hp
  unfold splitPieces at hp
  dsimp only at hp
  obtain ⟨hmem, hchain⟩ := lcsWalk_valid ((tokenizeWithOffsets c.original).map Token.token)
    ((tokenizeWithOffsets c.suggestion).map Token.token) 0 0
  refine splitWalk_good canonical c hgood _ _ 0 0 ?_ ?_ (Nat.zero_le _) p hp
  · intro q hq
    have hm := hmem q hq
    simp only [Nat.sub_zero, List.length_map] at hm
    exact ⟨Nat.zero_le _, hm.2.2.1⟩
  · haveI : IsTrans (Nat × Nat) (fun p q => p.1 < q.1 ∧ p.2 < q.2) :=
      ⟨fun a b c h1 h2 => ⟨Nat.lt_trans h1.1 h2.1, Nat.lt_trans h1.2 h2.2⟩⟩
    exact List.chain'_iff_pairwise.mp hchain

theorem splitOversized_good (canonical : List Char) (c : Corr) (opts : ReindexOptions)
    (hgood : GoodCorr canonical c) :
    ∀ p ∈ splitOversized c opts, GoodCorr canonical p := by
  intro p hp
  unfold splitOversized at hp
  dsimp only at hp
  split at hp
  · rw [List.mem_singleton] at hp
    subst hp
    exact hgood
  · split at hp
    · rw [List.mem_singleton] at hp
      subst hp
      exact hgood
    · exact splitPieces_good canonical c hgood p hp

theorem resolveStep_out (canonical : List Char) (opts : ReindexOptions)
    (st : ResolveState) (c : Corr) :
    ∀ p ∈ (resolveStep canonical opts st c).out, p ∈ st.out ∨ GoodCorr canonical p := by
  intro p hp
  unfold resolveStep at hp
  dsimp only at hp
  cases hloc : locateCorr canonical opts st.cursor (min c.start canonical.length) c.original with
  | none =>
    rw [hloc] at hp
    exact Or.inl hp
  | some ns0 =>
    rw [hloc] at hp
    dsimp only at hp
    cases hadj : (if ns0 < st.cursor then forwardGreedy canonical c.original st.cursor
        else some ns0) with
    | none =>
      rw [hadj] at hp
      exact Or.inl hp
    | some ns =>
      rw [hadj] at hp
      dsimp only at hp
      by_cases hver : jsSlice canonical ns (ns + c.original.length) = c.original
      · rw [if_pos hver] at hp
        dsimp only at hp
        rw [List.mem_append] at hp
        rcases hp with hp | hp
        · exact Or.inl hp
        · refine Or.inr (splitOversized_good canonical _ opts ⟨hver, rfl⟩ p hp)
      · rw [if_neg hver] at hp
        exact Or.inl hp

theorem foldl_resolve_good (canonical : List Char) (opts : ReindexOptions) (l : List Corr) :
    ∀ st : ResolveState, (∀ p ∈ st.out, GoodCorr canonical p) →
      ∀ p ∈ (l.foldl (resolveStep canonical opts) st).out, GoodCorr canonical p := by
  induction l with
  | nil => intro st h p hp; exact h p hp
  | cons c l ih =>
    intro st h p hp
    rw [List.foldl_cons] at hp
    refine ih (resolveStep canonical opts st c) ?_ p hp
    intro q hq
    rcases resolveStep_out canonical opts st c q hq with h1 | h1
    · exact h q h1
    · exact h1

theorem resolveOut_good (canonical : List Char) (inputCorrs : List Corr)
    (opts : ReindexOptions) :
    ∀ p ∈ (resolveOut canonical inputCorrs opts).out, GoodCorr canonical p := by
  intro p hp
  unfold resolveOut at hp
  exact foldl_resolve_good canonical opts _ _ (by intro q hq; simp at hq) p hp

/-! ## The final pass -/

theorem finalPass_spec (l : List Corr) (e : Nat) :
    (finalPass l e).Sublist l ∧
    (∀ c ∈ finalPass l e, e ≤ c.start ∧ c.start < c.«end») ∧
    List.Chain' (fun a b => a.«end» ≤ b.start) (finalPass l e) ∧
    List.Chain' (fun a b => a.start ≤ b.start) (finalPass l e) := by
  induction l generalizing e with
  | nil => simp [finalPass]
  | cons c l ih =>
    rw [finalPass]
    by_cases h1 : c.start < e
    · rw [if_pos h1]
      obtain ⟨s1, s2, s3, s4⟩ := ih e
      exact ⟨s1.cons c, s2, s3, s4⟩
    · rw [if_neg h1]
      by_cases h2 : c.«end» ≤ c.start
      · rw [if_pos h2]
        obtain ⟨s1, s2, s3, s4⟩ := ih e
        exact ⟨s1.cons c, s2, s3, s4⟩
      · rw [if_neg h2]
        obtain ⟨s1, s2, s3, s4⟩ := ih c.«end»
        refine ⟨s1.cons₂ c, ?_, ?_, ?_⟩
        · intro d hd
          rcases List.mem_cons.mp hd with rfl | hd
          · omega
          · have := s2 d hd
            omega
        · refine List.chain'_cons'.2 ⟨?_, s3⟩
          intro y hy
          have := s2 y (List.mem_of_mem_head? hy)
          omega
        · refine List.chain'_cons'.2 ⟨?_, s4⟩
          intro y hy
          have := s2 y (List.mem_of_mem_head? hy)
          omega

/-! ## The resolver claims -/

theorem reindexCorrections_corrections_eq (canonical : List Char) (inputCorrs : List Corr)
    (opts : ReindexOptions) :
    (reindexCorrections canonical inputCorrs opts).corrections
      = finalPass ((resolveOut canonical inputCorrs opts).out.mergeSort
          fun a b => decide (a.start ≤ b.start)) 0 := rfl

/-- C1: every edit in the resolver's cleaned output satisfies
`canonical.slice(start, end) = original` exactly, including every sub-edit
produced by oversized splitting. -/
theorem claim_C1_resolver_substring (canonical : List Char) (inputCorrs : List Corr)
    (opts : ReindexOptions) :
    ∀ c ∈ (reindexCorrections canonical inputCorrs opts).corrections,
      jsSlice canonical c.start c.«end» = c.original := by
  intro c hc
  rw [reindexCorrections_corrections_eq] at hc
  have hsub := (finalPass_spec ((resolveOut canonical inputCorrs opts).out.mergeSort
    fun a b => decide (a.start ≤ b.start)) 0).1
  have hmem : c ∈ (resolveOut canonical inputCorrs opts).out :=
    List.mem_mergeSort.mp (hsub.subset hc)
  exact (resolveOut_good canonical inputCorrs opts c hmem).1

/-- C2: the cleaned list is sorted ascending by start and pairwise
non-overlapping (`end ≤` next `start` for every adjacent pair), and it is a
sublist of the start-sorted accumulated edits: the final pass only drops
whole edits, never truncates or reorders them. -/
theorem claim_C2_resolver_sorted_nonoverlap (canonical : List Char)
    (inputCorrs : List Corr) (opts : ReindexOptions) :
    List.Chain' (fun a b => a.«end» ≤ b.start)
        (reindexCorrections canonical inputCorrs opts).corrections ∧
    List.Chain' (fun a b => a.start ≤ b.start)
        (reindexCorrections canonical inputCorrs opts).corrections ∧
    ((reindexCorrections canonical inputCorrs opts).corrections).Sublist
      ((resolveOut canonical inputCorrs opts).out.mergeSort
        fun a b => decide (a.start ≤ b.start)) := by
  rw [reindexCorrections_corrections_eq]
  obtain ⟨s1, -, s3, s4⟩ := finalPass_spec ((resolveOut canonical inputCorrs opts).out.mergeSort
    fun a b => decide (a.start ≤ b.start)) 0
  exact ⟨s3, s4, s1⟩

/-- C10: every edit in the cleaned output has a strictly positive span, and
therefore a nonempty `original`; zero-span edits (empty originals accepted
as-is, zero-span sub-edits of splitting) are silently dropped by the final
pass. -/
theorem claim_C10_positive_spans (canonical : List Char) (inputCorrs : List Corr)
    (opts : ReindexOptions) :
    ∀ c ∈ (reindexCorrections canonical inputCorrs opts).corrections,
      c.start < c.«end» ∧ c.original ≠ [] := by
  intro c hc
  rw [reindexCorrections_corrections_eq] at hc
  obtain ⟨s1, s2, -, -⟩ := finalPass_spec ((resolveOut canonical inputCorrs opts).out.mergeSort
    fun a b => decide (a.start ≤ b.start)) 0
  have hpos := (s2 c hc).2
  have hmem : c ∈ (resolveOut canonical inputCorrs opts).out :=
    List.mem_mergeSort.mp (s1.subset hc)
  have hgood := resolveOut_good canonical inputCorrs opts c hmem
  refine ⟨hpos, ?_⟩
  intro hnil
  rw [hgood.2, hnil] at hpos
  simp at hpos

unseal List.merge List.mergeSort wordCount in
theorem claim_C1_witness :
    jsSlice ("hola mundo".toList) 0 4 = "hola".toList :=
  claim_C1_resolver_substring ("hola mundo".toList)
    [⟨0, 4, "hola".toList, "HOLA".toList, "spelling", "caps", 1⟩]
    ⟨60, 120, 3, (4 : Rat) / 5, 48, 6⟩
    ⟨0, 4, "hola".toList, "HOLA".toList, "spelling", "caps", 1⟩ (by decide)

/-! ## Hunk coverage -/

theorem lcsTokenMatches_spec [DecidableEq α] (a b : List α) :
    (∀ q ∈ lcsTokenMatches a b, q.1 < a.length ∧ q.2 < b.length) ∧
    (lcsTokenMatches a b).Pairwise fun q r => q.1 < r.1 ∧ q.2 < r.2 := by
  obtain ⟨hmem, hchain⟩ := lcsWalk_valid a b 0 0
  constructor
  · intro q hq
    have hm := hmem q hq
    simp only [Nat.sub_zero] at hm
    exact ⟨hm.2.2.1, hm.2.2.2.1⟩
  · haveI : IsTrans (Nat × Nat) (fun p q => p.1 < q.1 ∧ p.2 < q.2) :=
      ⟨fun a b c h1 h2 => ⟨Nat.lt_trans h1.1 h2.1, Nat.lt_trans h1.2 h2.2⟩⟩
    exact List.chain'_iff_pairwise.mp hchain

theorem mkHunk_aRange (tokA tokB : List Token) (k : HunkKind) (aS aE bS bE : Nat) :
    (mkHunk tokA tokB k aS aE bS bE).aRange = (aS, aE) := rfl

theorem mkHunk_bRange (tokA tokB : List Token) (k : HunkKind) (aS aE bS bE : Nat) :
    (mkHunk tokA tokB k aS aE bS bE).bRange = (bS, bE) := rfl

theorem hunksWalk_chain (tokA tokB : List Token) (ms : List (Nat × Nat)) (aPos bPos : Nat)
    (hbnd : ∀ q ∈ ms, aPos ≤ q.1 ∧ bPos ≤ q.2 ∧ q.1 < tokA.length ∧ q.2 < tokB.length)
    (hpw : ms.Pairwise fun q r => q.1 < r.1 ∧ q.2 < r.2)
    (haPos : aPos ≤ tokA.length) (hbPos : bPos ≤ tokB.length) :
    RangeChainTo aPos tokA.length ((hunksWalk tokA tokB ms aPos bPos).map Hunk.aRange) ∧
    RangeChainTo bPos tokB.length ((hunksWalk tokA tokB ms aPos bPos).map Hunk.bRange) := by
  induction ms generalizing aPos bPos with
  | nil =>
    rw [hunksWalk]
    by_cases hg : tokA.length > aPos ∨ tokB.length > bPos
    · rw [if_pos hg]
      by_cases hr : tokA.length > aPos ∧ tokB.length > bPos
      · rw [if_pos hr]
        simp only [List.map_cons, List.map_nil, mkHunk_aRange, mkHunk_bRange]
        exact ⟨⟨rfl, by omega, rfl⟩, ⟨rfl, by omega, rfl⟩⟩
      · rw [if_neg hr]
        by_cases hra : tokA.length > aPos
        · rw [if_pos hra]
          simp only [List.map_cons, List.map_nil, mkHunk_aRange, mkHunk_bRange]
          refine ⟨⟨rfl, by omega, rfl⟩, ⟨rfl, by omega, ?_⟩⟩
          show bPos = tokB.length
          omega
        · rw [if_neg hra]
          simp only [List.map_cons, List.map_nil, mkHunk_aRange, mkHunk_bRange]
          refine ⟨⟨rfl, by omega, ?_⟩, ⟨rfl, by omega, rfl⟩⟩
          show aPos = tokA.length
          omega
    · rw [if_neg hg]
      exact ⟨by show aPos = tokA.length; omega, by show bPos = tokB.length; omega⟩
  | cons m rest ih =>
    have hm := hbnd m (List.mem_cons_self m rest)
    have hbnd' : ∀ q ∈ rest, m.1 + 1 ≤ q.1 ∧ m.2 + 1 ≤ q.2 ∧
        q.1 < tokA.length ∧ q.2 < tokB.length := by
      intro q hq
      have h1 := hbnd q (List.mem_cons_of_mem m hq)
      have h2 := (List.pairwise_cons.mp hpw).1 q hq
      exact ⟨by omega, by omega, h1.2.2.1, h1.2.2.2⟩
    obtain ⟨iha, ihb⟩ := ih (m.1 + 1) (m.2 + 1) hbnd' (List.pairwise_cons.mp hpw).2
      (by omega) (by omega)
    rw [hunksWalk]
    by_cases hg : m.1 > aPos ∨ m.2 > bPos
    · rw [if_pos hg]
      by_cases hr : m.1 > aPos ∧ m.2 > bPos
      · rw [if_pos hr]
        simp only [List.cons_append, List.nil_append, List.map_cons, mkHunk_aRange,
          mkHunk_bRange]
        exact ⟨⟨rfl, by omega, rfl, by omega, iha⟩, ⟨rfl, by omega, rfl, by omega, ihb⟩⟩
      · rw [if_neg hr]
        by_cases hra : m.1 > aPos
        · rw [if_pos hra]
          simp only [List.cons_append, List.nil_append, List.map_cons, mkHunk_aRange,
            mkHunk_bRange]
          have hbeq : m.2 = bPos := by omega
          exact ⟨⟨rfl, by omega, rfl, by omega, iha⟩,
            ⟨rfl, by omega, by rw [hbeq], by omega, ihb⟩⟩
        · rw [if_neg hra]
          simp only [List.cons_append, List.nil_append, List.map_cons, mkHunk_aRange,
            mkHunk_bRange]
          have haeq : m.1 = aPos := by omega
          exact ⟨⟨rfl, by omega, by rw [haeq], by omega, iha⟩,
            ⟨rfl, by omega, rfl, by omega, ihb⟩⟩
    · rw [if_neg hg]
      simp only [List.nil_append, List.map_cons, mkHunk_aRange, mkHunk_bRange]
      have haeq : m.1 = aPos := by omega
      have hbeq : m.2 = bPos := by omega
      refine ⟨⟨?_, ?_, ?_⟩, ⟨?_, ?_, ?_⟩⟩
      · show m.1 = aPos
        exact haeq
      · show aPos ≤ m.1 + 1
        omega
      · show RangeChainTo (m.1 + 1) tokA.length _
        exact iha
      · show m.2 = bPos
        exact hbeq
      · show bPos ≤ m.2 + 1
        omega
      · show RangeChainTo (m.2 + 1) tokB.length _
        exact ihb

theorem coalesce_chain (hs : List Hunk) (aPos aStop bPos bStop : Nat)
    (ha : RangeChainTo aPos aStop (hs.map Hunk.aRange))
    (hb : RangeChainTo bPos bStop (hs.map Hunk.bRange)) :
    RangeChainTo aPos aStop ((coalesce hs).map Hunk.aRange) ∧
    RangeChainTo bPos bStop ((coalesce hs).map Hunk.bRange) := by
  match hs with
  | [] =>
    rw [coalesce]
    exact ⟨ha, hb⟩
  | [h] =>
    rw [coalesce]
    exact ⟨ha, hb⟩
  | h1 :: h2 :: rest =>
    rw [coalesce]
    obtain ⟨ha1, ha2, ha3, ha4, ha5⟩ :
        h1.aStart = aPos ∧ aPos ≤ h1.aEnd ∧ h2.aStart = h1.aEnd ∧ h1.aEnd ≤ h2.aEnd ∧
          RangeChainTo h2.aEnd aStop (rest.map Hunk.aRange) := ha
    obtain ⟨hb1, hb2, hb3, hb4, hb5⟩ :
        h1.bStart = bPos ∧ bPos ≤ h1.bEnd ∧ h2.bStart = h1.bEnd ∧ h1.bEnd ≤ h2.bEnd ∧
          RangeChainTo h2.bEnd bStop (rest.map Hunk.bRange) := hb
    split
    · refine coalesce_chain (mergeEqual h1 h2 :: rest) aPos aStop bPos bStop ?_ ?_
      · refine ⟨?_, ?_, ?_⟩
        · show h1.aStart = aPos
          exact ha1
        · show aPos ≤ h2.aEnd
          omega
        · show RangeChainTo h2.aEnd aStop (rest.map Hunk.aRange)
          exact ha5
      · refine ⟨?_, ?_, ?_⟩
        · show h1.bStart = bPos
          exact hb1
        · show bPos ≤ h2.bEnd
          omega
        · show RangeChainTo h2.bEnd bStop (rest.map Hunk.bRange)
          exact hb5
    · obtain ⟨iha, ihb⟩ := coalesce_chain (h2 :: rest) h1.«aEnd» aStop h1.«bEnd» bStop
        ⟨ha3, ha4, ha5⟩ ⟨hb3, hb4, hb5⟩
      exact ⟨⟨ha1, ha2, iha⟩, ⟨hb1, hb2, ihb⟩⟩
termination_by hs.length

/-- C9: the ordered hunk list of `diffTokensToHunks` covers the token
sequences of both sides completely and disjointly: every token index of
the original belongs to the a-side range of exactly one hunk, every token
index of the corrected text to the b-side range of exactly one hunk, and
consecutive hunks are contiguous on both sides. -/
theorem claim_C9_hunk_coverage (original corrected : List Char) :
    (∀ i, i < (tokenizeUnicodeWords original).length →
      (diffTokensToHunks original corrected).countP
        (fun h => decide (h.aStart ≤ i ∧ i < h.aEnd)) = 1) ∧
    (∀ j, j < (tokenizeUnicodeWords corrected).length →
      (diffTokensToHunks original corrected).countP
        (fun h => decide (h.bStart ≤ j ∧ j < h.bEnd)) = 1) ∧
    List.Chain' (fun x y => x.aEnd = y.aStart) (diffTokensToHunks original corrected) ∧
    List.Chain' (fun x y => x.bEnd = y.bStart) (diffTokensToHunks original corrected) := by
  obtain ⟨hbnd, hpw⟩ := lcsTokenMatches_spec
    ((tokenizeUnicodeWords original).map Token.token)
    ((tokenizeUnicodeWords corrected).map Token.token)
  have hbnd' : ∀ q ∈ lcsTokenMatches ((tokenizeUnicodeWords original).map Token.token)
      ((tokenizeUnicodeWords corrected).map Token.token),
      0 ≤ q.1 ∧ 0 ≤ q.2 ∧ q.1 < (tokenizeUnicodeWords original).length ∧
        q.2 < (tokenizeUnicodeWords corrected).length := by
    intro q hq
    have := hbnd q hq
    simp only [List.length_map] at this
    exact ⟨Nat.zero_le _, Nat.zero_le _, this.1, this.2⟩
  obtain ⟨hwa, hwb⟩ := hunksWalk_chain (tokenizeUnicodeWords original)
    (tokenizeUnicodeWords corrected)
    (lcsTokenMatches ((tokenizeUnicodeWords original).map Token.token)
      ((tokenizeUnicodeWords corrected).map Token.token))
    0 0 hbnd' hpw (Nat.zero_le _) (Nat.zero_le _)
  obtain ⟨hca, hcb⟩ := coalesce_chain _ 0 (tokenizeUnicodeWords original).length
    0 (tokenizeUnicodeWords corrected).length hwa hwb
  have heq : diffTokensToHunks original corrected
      = coalesce (hunksWalk (tokenizeUnicodeWords original) (tokenizeUnicodeWords corrected)
          (lcsTokenMatches ((tokenizeUnicodeWords original).map Token.token)
            ((tokenizeUnicodeWords corrected).map Token.token)) 0 0) := rfl
  rw [heq]
  refine ⟨?_, ?_, ?_, ?_⟩
  · intro i hi
    have := rangeChainTo_countP hca i (Nat.zero_le i) hi
    rwa [List.countP_map] at this
  · intro j hj
    have := rangeChainTo_countP hcb j (Nat.zero_le j) hj
    rwa [List.countP_map] at this
  · have := rangeChainTo_chain' hca
    rwa [List.chain'_map] at this
  · have := rangeChainTo_chain' hcb
    rwa [List.chain'_map] at this

unseal tokenizeAux lcsLen lcsWalk coalesce in
theorem claim_C9_witness :
    (diffTokensToHunks ("Yo tengo un gato.".toList) ("Yo tengo un perro.".toList)).countP
      (fun h => decide (h.aStart ≤ 6 ∧ 6 < h.aEnd)) = 1 :=
  (claim_C9_hunk_coverage ("Yo tengo un gato.".toList) ("Yo tengo un perro.".toList)).1
    6 (by decide)

unseal List.merge List.mergeSort wordCount in
theorem claim_C10_witness :
    (5 : Nat) < 10 ∧ "mundo".toList ≠ [] :=
  claim_C10_positive_spans ("hola mundo".toList)
    [⟨5, 10, "mundo".toList, "Mundo".toList, "spelling", "caps", 1⟩]
    ⟨60, 120, 3, (4 : Rat) / 5, 48, 6⟩
    ⟨5, 10, "mundo".toList, "Mundo".toList, "spelling", "caps", 1⟩ (by decide)

/-! ## Span typing (claim C3)

The claim says a span's display category is the majority category among
its attached edits.  The source's `chooseSpanType` instead returns the
FIRST attached edit's category (`issues?.[0]?.type || 'other'`); with
attached categories `[grammar, spelling, spelling]` the majority is
`spelling` but the span is typed `grammar`. -/

theorem spansBuild_get?_type (issues : List Issue) (h2i : List (List Nat)) :
    ∀ (rs : List (Nat × Nat)) (k h : Nat) (sp : HighlightSpan),
      (spansBuild issues h2i rs k).get? h = some sp →
      sp.type = chooseSpanType ((((h2i.get? (k + h)).getD []).map issues.get?).reduceOption) := by
  intro rs
  induction rs with
  | nil => intro k h sp hsp; simp [spansBuild] at hsp
  | cons r rs ih =>
    intro k h sp hsp
    cases h with
    | zero =>
      rw [spansBuild, List.get?_cons_zero, Option.some.injEq] at hsp
      subst hsp
      rfl
    | succ h =>
      rw [spansBuild, List.get?_cons_succ] at hsp
      have hthis := ih (k + 1) h sp hsp
      have harith : k + 1 + h = k + (h + 1) := by omega
      rw [harith] at hthis
      exact hthis

/-- C3 (amended): a span's display category is the category of the FIRST
edit attached to it (in attachment order), defaulting to `other` when none
are attached — not the majority category. -/
theorem claim_C3_first_attached_type (original corrected : List Char) (issues : List Issue)
    (h : Nat) (sp : HighlightSpan)
    (hsp : (buildDiffHighlights original corrected issues).spans.get? h = some sp) :
    sp.type = chooseSpanType (attachedIssues (buildDiffHighlights original corrected issues) issues h) := by
  have heq : (buildDiffHighlights original corrected issues).spans
      = spansBuild issues (buildDiffHighlights original corrected issues).hunkToIssues
          (buildDiffHighlights original corrected issues).hunkRanges 0 := rfl
  rw [heq] at hsp
  have hty := spansBuild_get?_type issues
    (buildDiffHighlights original corrected issues).hunkToIssues
    (buildDiffHighlights original corrected issues).hunkRanges 0 h sp hsp
  rw [Nat.zero_add] at hty
  exact hty

/- Counterexample to C3 as stated: in "aa bb cc" vs "zz" the single
replace hunk gets three attached edits with categories
[grammar, spelling, spelling]; the strict majority is spelling, but the
span's displayed category is grammar (the first attached edit's). -/
unseal tokenizeAux lcsLen lcsWalk coalesce in
theorem claim_C3_counterexample :
    (buildDiffHighlights ("aa bb cc".toList) ("zz".toList)
        [⟨"aa".toList, "x".toList, .grammar, "", 1⟩,
         ⟨"bb".toList, "x".toList, .spelling, "", 1⟩,
         ⟨"cc".toList, "x".toList, .spelling, "", 1⟩]).spans.get? 0
      = some ⟨0, 8, IssueType.grammar, 0⟩ ∧
    ((attachedIssues (buildDiffHighlights ("aa bb cc".toList) ("zz".toList)
        [⟨"aa".toList, "x".toList, .grammar, "", 1⟩,
         ⟨"bb".toList, "x".toList, .spelling, "", 1⟩,
         ⟨"cc".toList, "x".toList, .spelling, "", 1⟩])
        [⟨"aa".toList, "x".toList, .grammar, "", 1⟩,
         ⟨"bb".toList, "x".toList, .spelling, "", 1⟩,
         ⟨"cc".toList, "x".toList, .spelling, "", 1⟩] 0).map Issue.type
      = [IssueType.grammar, IssueType.spelling, IssueType.spelling]) ∧
    ¬ IsMajorityType IssueType.grammar
        [IssueType.grammar, IssueType.spelling, IssueType.spelling] := by
  refine ⟨by decide, by decide, ?_⟩
  intro hmaj
  unfold IsMajorityType at hmaj
  rw [if_neg (by decide)] at hmaj
  have := hmaj IssueType.spelling
  revert this
  decide

/- Witness for the amended C3 at the same input: the span's category is
that of the first attached edit. -/
unseal tokenizeAux lcsLen lcsWalk coalesce in
theorem claim_C3_witness :
    (⟨0, 8, IssueType.grammar, 0⟩ : HighlightSpan).type
      = chooseSpanType (attachedIssues
          (buildDiffHighlights ("aa bb cc".toList) ("zz".toList)
            [⟨"aa".toList, "x".toList, .grammar, "", 1⟩,
             ⟨"bb".toList, "x".toList, .spelling, "", 1⟩,
             ⟨"cc".toList, "x".toList, .spelling, "", 1⟩])
          [⟨"aa".toList, "x".toList, .grammar, "", 1⟩,
           ⟨"bb".toList, "x".toList, .spelling, "", 1⟩,
           ⟨"cc".toList, "x".toList, .spelling, "", 1⟩] 0) :=
  claim_C3_first_attached_type ("aa bb cc".toList) ("zz".toList)
    [⟨"aa".toList, "x".toList, .grammar, "", 1⟩,
     ⟨"bb".toList, "x".toList, .spelling, "", 1⟩,
     ⟨"cc".toList, "x".toList, .spelling, "", 1⟩] 0 ⟨0, 8, IssueType.grammar, 0⟩
    (by decide)

/-! ## Issue attachment (claim C4)

The claim says an edit whose original occurs at two or more positions
inside a single span is reported unplaced as ambiguous.  The source only
reports `ambiguous_multiple_hunks` when occurrences span several hunks and
`ambiguous_claimed` when every occurrence is already claimed; with several
unclaimed occurrences inside one span it attaches the edit to the first
unclaimed occurrence. -/

/-- C4 (amended): when an edit's original occurs inside exactly one span
(at one or more positions, two or more included) and some occurrence does
not collide with an existing claim, the attachment step attaches the edit
to the first such occurrence — it is not reported unplaced.  Ambiguity is
reported only across multiple spans or when every occurrence is claimed. -/
theorem claim_C4_first_unclaimed_attached (original : List Char) (ranges : List (Nat × Nat))
    (st : AttachState) (idx : Nat) (iss : Issue) (h : Nat) (ps : List Nat) (p : Nat)
    (hne : iss.original ≠ [])
    (hcand : issueCandidates original ranges iss.original = [(h, ps)])
    (hfind : ps.find?
        (fun q => !collidesWith ((st.hunkClaims.get? h).getD []) q iss.original.length)
      = some p)
    (hidx : idx < st.issueToHunk.length) :
    (attachIssue original ranges st idx iss).issueToHunk.get? idx = some (some h) ∧
    (attachIssue original ranges st idx iss).unplaced = st.unplaced := by
  unfold attachIssue
  rw [if_neg hne, hcand]
  dsimp only
  rw [hfind]
  constructor
  · simp [List.get?_set, hidx]
  · rfl

/- Counterexample to C4 as stated: in "ab cd ab" vs "xx" there is one
replace hunk covering the whole string, and the edit's original "ab"
occurs at the two positions 0 and 6 inside it with nothing claimed; the
edit is attached (to hunk 0), not reported unplaced. -/
unseal tokenizeAux lcsLen lcsWalk coalesce in
theorem claim_C4_counterexample :
    issueCandidates ("ab cd ab".toList)
        ((buildDiffHighlights ("ab cd ab".toList) ("xx".toList)
          [⟨"ab".toList, "x".toList, .grammar, "", 1⟩]).hunkRanges)
        ("ab".toList)
      = [(0, [0, 6])] ∧
    (buildDiffHighlights ("ab cd ab".toList) ("xx".toList)
        [⟨"ab".toList, "x".toList, .grammar, "", 1⟩]).issueToHunk = [some 0] ∧
    (buildDiffHighlights ("ab cd ab".toList) ("xx".toList)
        [⟨"ab".toList, "x".toList, .grammar, "", 1⟩]).diagnostics.unplacedIssues = 0 := by
  refine ⟨by decide, by decide, by decide⟩

/-- Witness for the amended C4: a concrete attachment step with two
unclaimed occurrences in one span attaches the issue and leaves the
unplaced list unchanged. -/
theorem claim_C4_witness :
    (attachIssue ("ab cd ab".toList) [(0, 8)]
        ⟨[none], [[]], [[]], []⟩ 0 ⟨"ab".toList, "x".toList, .grammar, "", 1⟩).issueToHunk.get? 0
      = some (some 0) ∧
    (attachIssue ("ab cd ab".toList) [(0, 8)]
        ⟨[none], [[]], [[]], []⟩ 0 ⟨"ab".toList, "x".toList, .grammar, "", 1⟩).unplaced = [] :=
  claim_C4_first_unclaimed_attached ("ab cd ab".toList) [(0, 8)]
    ⟨[none], [[]], [[]], []⟩ 0 ⟨"ab".toList, "x".toList, .grammar, "", 1⟩ 0 [0, 6] 0
    (by decide) (by decide) (by decide) (by decide)

end GrammarCheck
